import Mathlib

/-!
# Base64 codec (minotronist/base64, src/src/lib.cpp)

A shallow embedding of `base64::encode`, `base64::decode` and the two
alphabet lookups, followed by the properties proved about them.

Conventions of the embedding:
* a `std::uint8_t` is a `Fin 256`; a conversion to `std::uint8_t` is `% 256`;
* a `std::uint32_t` is a `Nat` below `2 ^ 32`; a left shift is reduced `% 2 ^ 32`;
* a `char` is a `Char`, a `std::string` / `std::string_view` a `List Char`;
* an empty `std::optional` that is dereferenced, and a read through an
  iterator that is not dereferenceable, are `none`;
* `stderr` is the list of the strings written to it so far.
-/

namespace minotronist

/-- A `std::uint8_t`. -/
abbrev U8 := Fin 256

/-- The error kinds of `base64::decode` (include/base64.hpp). -/
inductive DecodeError where
  | InvalidByte
  deriving DecidableEq, Repr

/-- The function `lookup_b64_code`: the switch over the 6-bit value, `std::nullopt` otherwise. -/
def lookup_b64_code (value : Nat) : Option Char :=
  match value with
  | 0 => some 'A'
  | 1 => some 'B'
  | 2 => some 'C'
  | 3 => some 'D'
  | 4 => some 'E'
  | 5 => some 'F'
  | 6 => some 'G'
  | 7 => some 'H'
  | 8 => some 'I'
  | 9 => some 'J'
  | 10 => some 'K'
  | 11 => some 'L'
  | 12 => some 'M'
  | 13 => some 'N'
  | 14 => some 'O'
  | 15 => some 'P'
  | 16 => some 'Q'
  | 17 => some 'R'
  | 18 => some 'S'
  | 19 => some 'T'
  | 20 => some 'U'
  | 21 => some 'V'
  | 22 => some 'W'
  | 23 => some 'X'
  | 24 => some 'Y'
  | 25 => some 'Z'
  | 26 => some 'a'
  | 27 => some 'b'
  | 28 => some 'c'
  | 29 => some 'd'
  | 30 => some 'e'
  | 31 => some 'f'
  | 32 => some 'g'
  | 33 => some 'h'
  | 34 => some 'i'
  | 35 => some 'j'
  | 36 => some 'k'
  | 37 => some 'l'
  | 38 => some 'm'
  | 39 => some 'n'
  | 40 => some 'o'
  | 41 => some 'p'
  | 42 => some 'q'
  | 43 => some 'r'
  | 44 => some 's'
  | 45 => some 't'
  | 46 => some 'u'
  | 47 => some 'v'
  | 48 => some 'w'
  | 49 => some 'x'
  | 50 => some 'y'
  | 51 => some 'z'
  | 52 => some '0'
  | 53 => some '1'
  | 54 => some '2'
  | 55 => some '3'
  | 56 => some '4'
  | 57 => some '5'
  | 58 => some '6'
  | 59 => some '7'
  | 60 => some '8'
  | 61 => some '9'
  | 62 => some '+'
  | 63 => some '/'
  | _ => none

/-- The function `get_b64_code`: the argument is converted to `std::uint8_t`, the optional is
dereferenced unchecked (`none` when it is empty). -/
def get_b64_code (value : Nat) : Option Char :=
  lookup_b64_code (value % 256)

/-- The function `lookup_b64_index`: the switch over the character, `std::nullopt` otherwise. -/
def lookup_b64_index (code : Char) : Option Nat :=
  match code with
  | 'A' => some 0
  | 'B' => some 1
  | 'C' => some 2
  | 'D' => some 3
  | 'E' => some 4
  | 'F' => some 5
  | 'G' => some 6
  | 'H' => some 7
  | 'I' => some 8
  | 'J' => some 9
  | 'K' => some 10
  | 'L' => some 11
  | 'M' => some 12
  | 'N' => some 13
  | 'O' => some 14
  | 'P' => some 15
  | 'Q' => some 16
  | 'R' => some 17
  | 'S' => some 18
  | 'T' => some 19
  | 'U' => some 20
  | 'V' => some 21
  | 'W' => some 22
  | 'X' => some 23
  | 'Y' => some 24
  | 'Z' => some 25
  | 'a' => some 26
  | 'b' => some 27
  | 'c' => some 28
  | 'd' => some 29
  | 'e' => some 30
  | 'f' => some 31
  | 'g' => some 32
  | 'h' => some 33
  | 'i' => some 34
  | 'j' => some 35
  | 'k' => some 36
  | 'l' => some 37
  | 'm' => some 38
  | 'n' => some 39
  | 'o' => some 40
  | 'p' => some 41
  | 'q' => some 42
  | 'r' => some 43
  | 's' => some 44
  | 't' => some 45
  | 'u' => some 46
  | 'v' => some 47
  | 'w' => some 48
  | 'x' => some 49
  | 'y' => some 50
  | 'z' => some 51
  | '0' => some 52
  | '1' => some 53
  | '2' => some 54
  | '3' => some 55
  | '4' => some 56
  | '5' => some 57
  | '6' => some 58
  | '7' => some 59
  | '8' => some 60
  | '9' => some 61
  | '+' => some 62
  | '/' => some 63
  | _ => none

/-- The function `get_b64_index`: `lookup_b64_index(code).value()`; `none` stands for the
`std::bad_optional_access` it throws on an empty optional. -/
def get_b64_index (code : Char) : Option Nat :=
  lookup_b64_index code

/-- The lambda `[](auto acc, auto byte) { return (acc << 8) | byte; }` of
`encode`, on `std::uint32_t`. -/
def encode_step (acc : Nat) (byte : U8) : Nat :=
  ((acc <<< 8) % 2 ^ 32) ||| byte.val

/-- The lambda `[](auto acc, auto index) { return (acc << 6) | index; }` of
`decode`, on `std::uint32_t`. -/
def decode_step (acc : Nat) (index : Nat) : Nat :=
  ((acc <<< 6) % 2 ^ 32) ||| index

/-- The expression `buf_bit << l >> r` on `std::uint32_t`. -/
def shl_shr (buf_bit l r : Nat) : Nat :=
  ((buf_bit <<< l) % 2 ^ 32) >>> r

/-- The first loop of `encode`: `windows` iterations remain, `iter` is the input
from the iterator on, `encoded` the string built so far.  Returns the string
and the position of the iterator after the loop. -/
def encode_loop : Nat → List U8 → List Char → Option (List Char × List U8)
  | 0, iter, encoded => some (encoded, iter)
  | windows + 1, b0 :: b1 :: b2 :: next, encoded => do
    let buf_bit := [b1, b2].foldl encode_step b0.val
    let c0 ← get_b64_code (buf_bit >>> 18)
    let c1 ← get_b64_code (shl_shr buf_bit 14 26)
    let c2 ← get_b64_code (shl_shr buf_bit 20 26)
    let c3 ← get_b64_code (shl_shr buf_bit 26 26)
    encode_loop windows next (encoded ++ [c0, c1, c2, c3])
  | _ + 1, _, _ => none

/-- The second loop of `encode`:
`for (i = 0, rep = rem + 1; i < rep; i += 1) push_back(get_b64_code(buf_bit << (32 - rem*8 + i*6) >> 26))`,
with `todo = rep - i` iterations remaining. -/
def encode_rem_loop (buf_bit rem : Nat) : Nat → Nat → List Char → Option (List Char)
  | 0, _, encoded => some encoded
  | todo + 1, i, encoded => do
    let c ← get_b64_code (shl_shr buf_bit (32 - rem * 8 + i * 6) 26)
    encode_rem_loop buf_bit rem todo (i + 1) (encoded ++ [c])

/-- The function `base64::encode`. -/
def encode (bytes : List U8) : Option (List Char) := do
  let size_encoded := bytes.length
  let quot := size_encoded / 3
  let rem := size_encoded % 3
  let (encoded, iter) ← encode_loop quot bytes []
  if rem = 0 then
    return encoded
  match iter with
  | [] => none
  | first :: rest =>
    let buf_bit := rest.foldl encode_step first.val
    let encoded ← encode_rem_loop buf_bit rem (rem + 1) 0 encoded
    return encoded ++ List.replicate (4 - (rem + 1)) '='

/-- The call `std::transform(begin(trimmed), end(trimmed), back_inserter(indexes), get_b64_index)`:
`none` when `get_b64_index` throws. -/
def transform_get_b64_index : List Char → List Nat → Option (List Nat)
  | [], indexes => some indexes
  | code :: trimmed, indexes => do
    let index ← get_b64_index code
    transform_get_b64_index trimmed (indexes ++ [index])

/-- The first loop of `decode`: `windows` iterations remain, `iter` is the vector
of indexes from the iterator on, `bytes` the output built so far. -/
def decode_loop : Nat → List Nat → List U8 → Option (List U8 × List Nat)
  | 0, iter, bytes => some (bytes, iter)
  | windows + 1, i0 :: i1 :: i2 :: i3 :: next, bytes =>
    let buf_bit := [i1, i2, i3].foldl decode_step i0
    decode_loop windows next
      (bytes ++ [Fin.ofNat (buf_bit >>> 16), Fin.ofNat (shl_shr buf_bit 16 24),
        Fin.ofNat (shl_shr buf_bit 24 24)])
  | _ + 1, _, _ => none

/-- The second loop of `decode`:
`for (i = 0, rep = rem - 1; i < rep; i += 1) emplace_back(buf_bit << (32 - rem*6 + i*8) >> 24)`,
with `todo = rep - i` iterations remaining. -/
def decode_rem_loop (buf_bit rem : Nat) : Nat → Nat → List U8 → List U8
  | 0, _, bytes => bytes
  | todo + 1, i, bytes =>
    decode_rem_loop buf_bit rem todo (i + 1)
      (bytes ++ [Fin.ofNat (shl_shr buf_bit (32 - rem * 6 + i * 8) 24)])

/-- The text of `std::bad_optional_access::what()`, which the standard leaves to the
library; this is the text of libstdc++ and libc++.  Nothing proved below depends on it
beyond the line being written. -/
def bad_optional_access_what : String := "bad optional access"

/-- The function `base64::decode`, with `stderr` threaded through.  The result is `none` where
the code reads through an iterator that is not dereferenceable. -/
def decode (encoded : List Char) (stderr : List String) :
    Option (Except DecodeError (List U8)) × List String :=
  let trimmed := encoded.takeWhile (fun c => c != '=')
  let size := trimmed.length
  match transform_get_b64_index trimmed [] with
  | none => (some (Except.error DecodeError.InvalidByte),
      stderr ++ [bad_optional_access_what ++ "\n"])
  | some indexes =>
    let quot := size / 4
    let rem := size % 4
    match decode_loop quot indexes [] with
    | none => (none, stderr)
    | some (bytes, iter) =>
      if rem = 0 then
        (some (Except.ok bytes), stderr)
      else
        match iter with
        | [] => (none, stderr)
        | first :: rest =>
          let buf_bit := rest.foldl decode_step first
          (some (Except.ok (decode_rem_loop buf_bit rem (rem - 1) 0 bytes)), stderr)

/-! ## Specification-side definitions -/

/-- The 64-symbol alphabet in order: `A`-`Z`, `a`-`z`, `0`-`9`, `+`, `/`. -/
def alphabet : List Char :=
  ['A', 'B', 'C', 'D', 'E', 'F', 'G', 'H', 'I', 'J', 'K', 'L', 'M', 'N', 'O', 'P',
   'Q', 'R', 'S', 'T', 'U', 'V', 'W', 'X', 'Y', 'Z', 'a', 'b', 'c', 'd', 'e', 'f',
   'g', 'h', 'i', 'j', 'k', 'l', 'm', 'n', 'o', 'p', 'q', 'r', 's', 't', 'u', 'v',
   'w', 'x', 'y', 'z', '0', '1', '2', '3', '4', '5', '6', '7', '8', '9', '+', '/']

/-- The alphabet character of a 6-bit value. -/
def alphabet_char (v : Nat) : Char :=
  alphabet.getD v '='

/-- The part of the input before the first `=` (all of it when there is none). -/
def trimmed (encoded : List Char) : List Char :=
  encoded.takeWhile (fun c => c != '=')

/-- The 6-bit values of the symbols that `encode` writes, window by window. -/
def encode_values : List U8 → List Nat
  | a :: b :: c :: rest =>
    [a.val / 4, a.val % 4 * 16 + b.val / 16, b.val % 16 * 4 + c.val / 64, c.val % 64] ++
      encode_values rest
  | [a, b] => [a.val / 4, a.val % 4 * 16 + b.val / 16, b.val % 16 * 4]
  | [a] => [a.val / 4, a.val % 4 * 16]
  | [] => []

/-- The string that `encode` writes, window by window. -/
def encode_windows : List U8 → List Char
  | a :: b :: c :: rest =>
    [alphabet_char (a.val / 4), alphabet_char (a.val % 4 * 16 + b.val / 16),
      alphabet_char (b.val % 16 * 4 + c.val / 64), alphabet_char (c.val % 64)] ++
      encode_windows rest
  | [a, b] =>
    [alphabet_char (a.val / 4), alphabet_char (a.val % 4 * 16 + b.val / 16),
      alphabet_char (b.val % 16 * 4), '=']
  | [a] => [alphabet_char (a.val / 4), alphabet_char (a.val % 4 * 16), '=', '=']
  | [] => []

/-- The bytes that `decode` writes for a sequence of 6-bit values, window by window. -/
def decode_values : List Nat → List U8
  | i0 :: i1 :: i2 :: i3 :: rest =>
    [Fin.ofNat (i0 * 4 + i1 / 16), Fin.ofNat (i1 % 16 * 16 + i2 / 4),
      Fin.ofNat (i2 % 4 * 64 + i3)] ++ decode_values rest
  | [i0, i1, i2] => [Fin.ofNat (i0 * 4 + i1 / 16), Fin.ofNat (i1 % 16 * 16 + i2 / 4)]
  | [i0, i1] => [Fin.ofNat (i0 * 4 + i1 / 16)]
  | _ => []

/-- The bits of a byte, most significant first. -/
def byte_bits (b : U8) : List Nat :=
  [7, 6, 5, 4, 3, 2, 1, 0].map (fun i => b.val / 2 ^ i % 2)

/-- A byte sequence written as a big-endian bit string. -/
def bit_string (B : List U8) : List Nat :=
  match B with
  | [] => []
  | b :: rest => byte_bits b ++ bit_string rest

/-- A bit string padded on the right with zero bits to a multiple of 6. -/
def pad_to_sextets (bits : List Nat) : List Nat :=
  bits ++ List.replicate ((6 - bits.length % 6) % 6) 0

/-- The value of a bit string read most significant bit first. -/
def bits_value (bits : List Nat) : Nat :=
  bits.foldl (fun acc bit => 2 * acc + bit) 0

/-- The 6-bit value at bits `[6k, 6k+6)` of a bit string. -/
def sextet (bits : List Nat) (k : Nat) : Nat :=
  bits_value ((bits.drop (6 * k)).take 6)

/-- The number of `=` that follow the symbols, by the number of leftover bytes. -/
def padding_count (leftover : Nat) : Nat :=
  match leftover with
  | 1 => 2
  | 2 => 1
  | _ => 0

/-- The RFC 4648 bit-level reference encoder: the `k`-th symbol is the alphabet
character of the 6-bit value at bits `[6k, 6k+6)` of the padded bit string; one
leftover byte is followed by `==`, two leftover bytes by `=`. -/
def encode_reference (B : List U8) : List Char :=
  let bits := pad_to_sextets (bit_string B)
  (List.range (bits.length / 6)).map (fun k => alphabet_char (sextet bits k)) ++
    List.replicate (padding_count (B.length % 3)) '='

/-- Bits `[hi:lo]` of `x`. -/
def bit_field (x hi lo : Nat) : Nat :=
  x / 2 ^ lo % 2 ^ (hi + 1 - lo)

/-- The bits of a group of 6-bit values, the first symbol most significant. -/
def group_bits (group : List Nat) : Nat :=
  group.foldl (fun acc v => acc * 64 + v) 0

/-- The bit-level reference decoder on 6-bit values: a full 4-symbol window yields
the bytes at bits `[23:16]`, `[15:8]`, `[7:0]`, a final group of 2 symbols the byte
at bits `[11:4]`, a final group of 3 symbols the bytes at bits `[17:10]` and
`[9:2]`.  It is undefined on a final group of 1 symbol. -/
def decode_reference : List Nat → Option (List Nat)
  | v0 :: v1 :: v2 :: v3 :: rest =>
    (decode_reference rest).map (fun bytes =>
      [bit_field (group_bits [v0, v1, v2, v3]) 23 16,
        bit_field (group_bits [v0, v1, v2, v3]) 15 8,
        bit_field (group_bits [v0, v1, v2, v3]) 7 0] ++ bytes)
  | [v0, v1, v2] =>
    some [bit_field (group_bits [v0, v1, v2]) 17 10, bit_field (group_bits [v0, v1, v2]) 9 2]
  | [v0, v1] => some [bit_field (group_bits [v0, v1]) 11 4]
  | [_] => none
  | [] => some []

/-- The RFC 4648 table as the specification words it: values 0 to 25 give the character
with code `'A' + v`, 26 to 51 give `'a' + (v - 26)`, 52 to 61 give `'0' + (v - 52)`,
62 gives `+`, 63 gives `/`, and a value from 64 on gives no character. -/
def rfc4648_char (v : Nat) : Option Char :=
  if v < 26 then some (Char.ofNat ('A'.toNat + v))
  else if v < 52 then some (Char.ofNat ('a'.toNat + (v - 26)))
  else if v < 62 then some (Char.ofNat ('0'.toNat + (v - 52)))
  else if v = 62 then some '+'
  else if v = 63 then some '/'
  else none

/-! ## Auxiliary lemmas -/


theorem shl_or_eq (acc x k : Nat) (hx : x < 2 ^ k) (hacc : acc * 2 ^ k < 2 ^ 32) :
    ((acc <<< k) % 2 ^ 32) ||| x = acc * 2 ^ k + x := by
  rw [Nat.shiftLeft_eq, Nat.mod_eq_of_lt hacc, Nat.mul_comm, ← Nat.mul_add_lt_is_or hx]

theorem encode_step_eq (acc : Nat) (byte : U8) (h : acc < 2 ^ 24) :
    encode_step acc byte = acc * 256 + byte.val := by
  unfold encode_step
  rw [shl_or_eq acc byte.val 8 (by have := byte.isLt; omega) (by omega)]
  omega

theorem decode_step_eq (acc index : Nat) (h : acc < 2 ^ 26) (hi : index < 64) :
    decode_step acc index = acc * 64 + index := by
  unfold decode_step
  rw [shl_or_eq acc index 6 (by omega) (by omega)]
  omega

theorem shl_shr_eq (buf_bit l r : Nat) :
    shl_shr buf_bit l r = buf_bit * 2 ^ l % 2 ^ 32 / 2 ^ r := by
  unfold shl_shr
  rw [Nat.shiftLeft_eq, Nat.shiftRight_eq_div_pow]

theorem lookup_b64_code_of_lt (v : Nat) (h : v < 64) :
    lookup_b64_code v = some (alphabet_char v) := by
  interval_cases v <;> rfl

theorem get_b64_code_of_lt (v : Nat) (h : v < 64) :
    get_b64_code v = some (alphabet_char v) := by
  unfold get_b64_code
  rw [Nat.mod_eq_of_lt (by omega), lookup_b64_code_of_lt v h]

theorem lookup_b64_index_alphabet_char (v : Nat) (h : v < 64) :
    lookup_b64_index (alphabet_char v) = some v := by
  interval_cases v <;> rfl

theorem alphabet_char_mem (v : Nat) (h : v < 64) : alphabet_char v ∈ alphabet := by
  interval_cases v <;> decide

theorem eq_not_mem_alphabet : '=' ∉ alphabet := by decide

set_option maxHeartbeats 1000000 in
theorem lookup_b64_index_some (c : Char) (v : Nat) (h : lookup_b64_index c = some v) :
    v < 64 ∧ c = alphabet_char v := by
  unfold lookup_b64_index at h
  split at h
  all_goals first
    | (cases h; exact ⟨by decide, rfl⟩)
    | exact absurd h (by simp)

theorem lookup_b64_index_eq_none_iff (c : Char) :
    lookup_b64_index c = none ↔ c ∉ alphabet := by
  constructor
  · intro h hc
    have : ∀ c ∈ alphabet, (lookup_b64_index c).isSome = true := by decide
    have := this c hc
    rw [h] at this
    exact absurd this (by simp)
  · intro hc
    cases h : lookup_b64_index c with
    | none => rfl
    | some v =>
      obtain ⟨hv, rfl⟩ := lookup_b64_index_some c v h
      exact absurd (alphabet_char_mem v hv) hc

theorem encode_window_eq (a b c : U8) :
    [b, c].foldl encode_step a.val = a.val * 65536 + b.val * 256 + c.val := by
  have ha := a.isLt
  have hb := b.isLt
  simp only [List.foldl]
  rw [encode_step_eq a.val b (by omega), encode_step_eq _ c (by omega)]
  omega

theorem encode_loop_eq (n : Nat) : ∀ (l : List U8) (acc : List Char), 3 * n ≤ l.length →
    encode_loop n l acc = some (acc ++ encode_windows (l.take (3 * n)), l.drop (3 * n)) := by
  induction n with
  | zero => intro l acc _; simp [encode_loop, encode_windows]
  | succ n ih =>
    intro l acc hl
    match l, hl with
    | a :: b :: c :: rest, hl =>
      have ha := a.isLt
      have hb := b.isLt
      have hc := c.isLt
      have h0 : (a.val * 65536 + b.val * 256 + c.val) >>> 18 = a.val / 4 := by
        rw [Nat.shiftRight_eq_div_pow]; omega
      have h1 : shl_shr (a.val * 65536 + b.val * 256 + c.val) 14 26
          = a.val % 4 * 16 + b.val / 16 := by
        rw [shl_shr_eq]; omega
      have h2 : shl_shr (a.val * 65536 + b.val * 256 + c.val) 20 26
          = b.val % 16 * 4 + c.val / 64 := by
        rw [shl_shr_eq]; omega
      have h3 : shl_shr (a.val * 65536 + b.val * 256 + c.val) 26 26 = c.val % 64 := by
        rw [shl_shr_eq]; omega
      have hr : 3 * n ≤ rest.length := by simp at hl; omega
      have e : 3 * (n + 1) = 3 * n + 3 := by ring
      rw [encode_loop, encode_window_eq, h0, h1, h2, h3]
      rw [get_b64_code_of_lt _ (by omega), get_b64_code_of_lt _ (by omega),
        get_b64_code_of_lt _ (by omega), get_b64_code_of_lt _ (by omega)]
      simp only [Option.bind_eq_bind, Option.some_bind]
      rw [ih rest _ hr, e]
      simp [encode_windows]

theorem encode_windows_append (n : Nat) : ∀ (l r : List U8), l.length = 3 * n →
    encode_windows (l ++ r) = encode_windows l ++ encode_windows r := by
  induction n with
  | zero =>
    intro l r hl
    have : l = [] := List.length_eq_zero.mp (by omega)
    subst this
    simp [encode_windows]
  | succ n ih =>
    intro l r hl
    match l, hl with
    | a :: b :: c :: rest, hl =>
      have hr : rest.length = 3 * n := by simp at hl; omega
      simp [encode_windows, ih rest r hr]

theorem encode_rem_one (a : U8) (acc : List Char) :
    encode_rem_loop a.val 1 2 0 acc
      = some (acc ++ [alphabet_char (a.val / 4), alphabet_char (a.val % 4 * 16)]) := by
  have ha := a.isLt
  have h0 : shl_shr a.val (32 - 1 * 8 + 0 * 6) 26 = a.val / 4 := by
    rw [shl_shr_eq]; omega
  have h1 : shl_shr a.val (32 - 1 * 8 + (0 + 1) * 6) 26 = a.val % 4 * 16 := by
    rw [shl_shr_eq]; omega
  simp only [encode_rem_loop, h0, h1, Option.bind_eq_bind]
  rw [get_b64_code_of_lt _ (by omega), get_b64_code_of_lt _ (by omega)]
  simp

theorem encode_rem_two (a b : U8) (acc : List Char) :
    encode_rem_loop (a.val * 256 + b.val) 2 3 0 acc
      = some (acc ++ [alphabet_char (a.val / 4), alphabet_char (a.val % 4 * 16 + b.val / 16),
          alphabet_char (b.val % 16 * 4)]) := by
  have ha := a.isLt
  have hb := b.isLt
  have h0 : shl_shr (a.val * 256 + b.val) (32 - 2 * 8 + 0 * 6) 26 = a.val / 4 := by
    rw [shl_shr_eq]; omega
  have h1 : shl_shr (a.val * 256 + b.val) (32 - 2 * 8 + (0 + 1) * 6) 26
      = a.val % 4 * 16 + b.val / 16 := by
    rw [shl_shr_eq]; omega
  have h2 : shl_shr (a.val * 256 + b.val) (32 - 2 * 8 + (0 + 1 + 1) * 6) 26
      = b.val % 16 * 4 := by
    rw [shl_shr_eq]; omega
  simp only [encode_rem_loop, h0, h1, h2, Option.bind_eq_bind]
  rw [get_b64_code_of_lt _ (by omega), get_b64_code_of_lt _ (by omega),
    get_b64_code_of_lt _ (by omega)]
  simp

theorem encode_eq (bytes : List U8) : encode bytes = some (encode_windows bytes) := by
  have hq : 3 * (bytes.length / 3) ≤ bytes.length := by omega
  have hsplit : bytes = bytes.take (3 * (bytes.length / 3)) ++ bytes.drop (3 * (bytes.length / 3)) :=
    (List.take_append_drop _ _).symm
  have htake : (bytes.take (3 * (bytes.length / 3))).length = 3 * (bytes.length / 3) := by
    simp; omega
  have hdrop : (bytes.drop (3 * (bytes.length / 3))).length = bytes.length % 3 := by
    simp; omega
  have happ := encode_windows_append (bytes.length / 3) _ (bytes.drop (3 * (bytes.length / 3))) htake
  rw [← hsplit] at happ
  unfold encode
  simp only [Option.bind_eq_bind, encode_loop_eq _ bytes [] hq, Option.some_bind, List.nil_append]
  generalize bytes.drop (3 * (bytes.length / 3)) = tail at hdrop happ
  rw [happ]
  match tail, hdrop with
  | [], h =>
    have : bytes.length % 3 = 0 := by simpa using h.symm
    simp [this, encode_windows]
  | [a], h =>
    have hr : bytes.length % 3 = 1 := by simpa using h.symm
    have ha := a.isLt
    simp [hr, encode_windows, encode_rem_one]
  | [a, b], h =>
    have hr : bytes.length % 3 = 2 := by simpa using h.symm
    have ha := a.isLt
    have e : encode_step a.val b = a.val * 256 + b.val := encode_step_eq _ _ (by omega)
    simp [hr, encode_windows, e, encode_rem_two]
  | _ :: _ :: _ :: _, h =>
    simp at h
    omega

theorem transform_eq_of_map (l : List Char) : ∀ (vs acc : List Nat),
    l.map lookup_b64_index = vs.map some →
    transform_get_b64_index l acc = some (acc ++ vs) := by
  induction l with
  | nil =>
    intro vs acc h
    cases vs with
    | nil => simp [transform_get_b64_index]
    | cons v vs => simp at h
  | cons c l ih =>
    intro vs acc h
    cases vs with
    | nil => simp at h
    | cons v vs =>
      simp only [List.map_cons, List.cons.injEq] at h
      simp [transform_get_b64_index, get_b64_index, h.1, ih vs _ h.2]

theorem transform_eq_none (l : List Char) : ∀ (acc : List Nat),
    (∃ c ∈ l, c ∉ alphabet) → transform_get_b64_index l acc = none := by
  induction l with
  | nil => intro acc h; simp at h
  | cons c l ih =>
    intro acc h
    cases hc : lookup_b64_index c with
    | none => simp [transform_get_b64_index, get_b64_index, hc]
    | some v =>
      have hmem : c ∈ alphabet := by
        by_contra hn
        rw [(lookup_b64_index_eq_none_iff c).mpr hn] at hc
        exact absurd hc (by simp)
      obtain ⟨d, hd, hdn⟩ := h
      have hdl : d ∈ l := by
        rcases List.mem_cons.mp hd with rfl | h'
        · exact absurd hmem hdn
        · exact h'
      simp [transform_get_b64_index, get_b64_index, hc, ih _ ⟨d, hdl, hdn⟩]

theorem exists_values (l : List Char) (h : ∀ c ∈ l, c ∈ alphabet) :
    ∃ vs : List Nat, l.map lookup_b64_index = vs.map some ∧ vs.length = l.length ∧
      ∀ v ∈ vs, v < 64 := by
  induction l with
  | nil => exact ⟨[], rfl, rfl, by simp⟩
  | cons c l ih =>
    obtain ⟨vs, h1, h2, h3⟩ := ih (fun d hd => h d (List.mem_cons_of_mem _ hd))
    cases hc : lookup_b64_index c with
    | none =>
      exact absurd (h c (List.mem_cons_self _ _)) ((lookup_b64_index_eq_none_iff c).mp hc)
    | some v =>
      refine ⟨v :: vs, by simp [hc, h1], by simp [h2], ?_⟩
      intro w hw
      rcases List.mem_cons.mp hw with rfl | h'
      · exact (lookup_b64_index_some c w hc).1
      · exact h3 w h'

theorem values_lt (l : List Char) : ∀ (vs : List Nat),
    l.map lookup_b64_index = vs.map some → (∀ v ∈ vs, v < 64) ∧ vs.length = l.length ∧
      ∀ c ∈ l, c ∈ alphabet := by
  induction l with
  | nil =>
    intro vs h
    cases vs with
    | nil => simp
    | cons v vs => simp at h
  | cons c l ih =>
    intro vs h
    cases vs with
    | nil => simp at h
    | cons v vs =>
      simp only [List.map_cons, List.cons.injEq] at h
      obtain ⟨h1, h2, h3⟩ := ih vs h.2
      obtain ⟨hv, hc⟩ := lookup_b64_index_some c v h.1
      refine ⟨?_, by simp [h2], ?_⟩
      · intro w hw
        rcases List.mem_cons.mp hw with rfl | h'
        · exact hv
        · exact h1 w h'
      · intro d hd
        rcases List.mem_cons.mp hd with rfl | h'
        · rw [hc]; exact alphabet_char_mem v hv
        · exact h3 d h'

theorem decode_window_eq (i0 i1 i2 i3 : Nat) (h0 : i0 < 64) (h1 : i1 < 64) (h2 : i2 < 64)
    (h3 : i3 < 64) :
    [i1, i2, i3].foldl decode_step i0 = i0 * 262144 + i1 * 4096 + i2 * 64 + i3 := by
  simp only [List.foldl]
  rw [decode_step_eq i0 i1 (by omega) h1, decode_step_eq _ i2 (by omega) h2,
    decode_step_eq _ i3 (by omega) h3]
  omega

theorem decode_loop_eq (n : Nat) : ∀ (l : List Nat) (acc : List U8), 4 * n ≤ l.length →
    (∀ v ∈ l, v < 64) →
    decode_loop n l acc = some (acc ++ decode_values (l.take (4 * n)), l.drop (4 * n)) := by
  induction n with
  | zero => intro l acc _ _; simp [decode_loop, decode_values]
  | succ n ih =>
    intro l acc hl hv
    match l, hl, hv with
    | i0 :: i1 :: i2 :: i3 :: rest, hl, hv =>
      have h0 : i0 < 64 := hv i0 (by simp)
      have h1 : i1 < 64 := hv i1 (by simp)
      have h2 : i2 < 64 := hv i2 (by simp)
      have h3 : i3 < 64 := hv i3 (by simp)
      have e0 : (i0 * 262144 + i1 * 4096 + i2 * 64 + i3) >>> 16 = i0 * 4 + i1 / 16 := by
        rw [Nat.shiftRight_eq_div_pow]; omega
      have e1 : shl_shr (i0 * 262144 + i1 * 4096 + i2 * 64 + i3) 16 24
          = i1 % 16 * 16 + i2 / 4 := by
        rw [shl_shr_eq]; omega
      have e2 : shl_shr (i0 * 262144 + i1 * 4096 + i2 * 64 + i3) 24 24
          = i2 % 4 * 64 + i3 := by
        rw [shl_shr_eq]; omega
      have hr : 4 * n ≤ rest.length := by simp at hl; omega
      have hvr : ∀ v ∈ rest, v < 64 := fun v hm => hv v (by simp [hm])
      have e : 4 * (n + 1) = 4 * n + 4 := by ring
      rw [decode_loop, decode_window_eq i0 i1 i2 i3 h0 h1 h2 h3, e0, e1, e2]
      rw [ih rest _ hr hvr, e]
      simp [decode_values]

theorem decode_values_append (n : Nat) : ∀ (l r : List Nat), l.length = 4 * n →
    decode_values (l ++ r) = decode_values l ++ decode_values r := by
  induction n with
  | zero =>
    intro l r hl
    have : l = [] := List.length_eq_zero.mp (by omega)
    subst this
    simp [decode_values]
  | succ n ih =>
    intro l r hl
    match l, hl with
    | i0 :: i1 :: i2 :: i3 :: rest, hl =>
      have hr : rest.length = 4 * n := by simp at hl; omega
      simp [decode_values, ih rest r hr]

theorem decode_rem_two (i0 i1 : Nat) (h0 : i0 < 64) (h1 : i1 < 64) (acc : List U8) :
    decode_rem_loop (i0 * 64 + i1) 2 1 0 acc = acc ++ [Fin.ofNat (i0 * 4 + i1 / 16)] := by
  have e0 : shl_shr (i0 * 64 + i1) (32 - 2 * 6 + 0 * 8) 24 = i0 * 4 + i1 / 16 := by
    rw [shl_shr_eq]; omega
  simp only [decode_rem_loop, e0]

theorem decode_rem_three (i0 i1 i2 : Nat) (h0 : i0 < 64) (h1 : i1 < 64) (h2 : i2 < 64)
    (acc : List U8) :
    decode_rem_loop (i0 * 4096 + i1 * 64 + i2) 3 2 0 acc
      = acc ++ [Fin.ofNat (i0 * 4 + i1 / 16), Fin.ofNat (i1 % 16 * 16 + i2 / 4)] := by
  have e0 : shl_shr (i0 * 4096 + i1 * 64 + i2) (32 - 3 * 6 + 0 * 8) 24 = i0 * 4 + i1 / 16 := by
    rw [shl_shr_eq]; omega
  have e1 : shl_shr (i0 * 4096 + i1 * 64 + i2) (32 - 3 * 6 + (0 + 1) * 8) 24
      = i1 % 16 * 16 + i2 / 4 := by
    rw [shl_shr_eq]; omega
  simp only [decode_rem_loop, e0, e1, List.append_assoc, List.singleton_append]

theorem decode_of_values (encoded : List Char) (stderr : List String) (vs : List Nat)
    (h : (trimmed encoded).map lookup_b64_index = vs.map some) :
    decode encoded stderr = (some (Except.ok (decode_values vs)), stderr) := by
  obtain ⟨hv, hlen, -⟩ := values_lt _ vs h
  have ht := transform_eq_of_map _ vs [] h
  unfold trimmed at h ht hlen
  have hq : 4 * (vs.length / 4) ≤ vs.length := by omega
  have hsplit : vs = vs.take (4 * (vs.length / 4)) ++ vs.drop (4 * (vs.length / 4)) :=
    (List.take_append_drop _ _).symm
  have htake : (vs.take (4 * (vs.length / 4))).length = 4 * (vs.length / 4) := by
    simp; omega
  have hdrop : (vs.drop (4 * (vs.length / 4))).length = vs.length % 4 := by
    simp; omega
  have hvd : ∀ v ∈ vs.drop (4 * (vs.length / 4)), v < 64 :=
    fun v hm => hv v (List.mem_of_mem_drop hm)
  have happ := decode_values_append (vs.length / 4) _ (vs.drop (4 * (vs.length / 4))) htake
  rw [← hsplit] at happ
  unfold decode
  simp only [ht, List.nil_append, ← hlen, decode_loop_eq _ vs [] hq hv]
  generalize vs.drop (4 * (vs.length / 4)) = tail at hdrop happ hvd
  rw [happ]
  match tail, hdrop, hvd with
  | [], h, _ =>
    have : vs.length % 4 = 0 := by simpa using h.symm
    simp [this, decode_values]
  | [i0], h, _ =>
    have hr : vs.length % 4 = 1 := by simpa using h.symm
    simp [hr, decode_values, decode_rem_loop]
  | [i0, i1], h, hvd =>
    have hr : vs.length % 4 = 2 := by simpa using h.symm
    have h0 : i0 < 64 := hvd i0 (by simp)
    have h1 : i1 < 64 := hvd i1 (by simp)
    have e : decode_step i0 i1 = i0 * 64 + i1 := decode_step_eq _ _ (by omega) h1
    simp [hr, decode_values, e, decode_rem_two i0 i1 h0 h1]
  | [i0, i1, i2], h, hvd =>
    have hr : vs.length % 4 = 3 := by simpa using h.symm
    have h0 : i0 < 64 := hvd i0 (by simp)
    have h1 : i1 < 64 := hvd i1 (by simp)
    have h2 : i2 < 64 := hvd i2 (by simp)
    have e : decode_step (decode_step i0 i1) i2 = i0 * 4096 + i1 * 64 + i2 := by
      rw [decode_step_eq i0 i1 (by omega) h1, decode_step_eq _ i2 (by omega) h2]
      omega
    simp [hr, decode_values, e, decode_rem_three i0 i1 i2 h0 h1 h2]
  | _ :: _ :: _ :: _ :: _, h, _ =>
    simp at h
    omega

theorem decode_of_not_alphabet (encoded : List Char) (stderr : List String)
    (h : ∃ c ∈ trimmed encoded, c ∉ alphabet) :
    decode encoded stderr = (some (Except.error DecodeError.InvalidByte),
      stderr ++ [bad_optional_access_what ++ "\n"]) := by
  have ht := transform_eq_none _ [] h
  unfold trimmed at ht
  unfold decode
  simp only [ht]

theorem trimmed_cons_alphabet_char (v : Nat) (h : v < 64) (l : List Char) :
    trimmed (alphabet_char v :: l) = alphabet_char v :: trimmed l := by
  have hm := alphabet_char_mem v h
  have hne : (alphabet_char v != '=') = true := by
    simp only [bne_iff_ne, ne_eq]
    intro he
    rw [he] at hm
    exact eq_not_mem_alphabet hm
  simp [trimmed, List.takeWhile_cons, hne]

theorem trimmed_cons_eq (l : List Char) : trimmed ('=' :: l) = [] := by
  simp [trimmed, List.takeWhile_cons]

theorem trimmed_encode_windows (bytes : List U8) :
    (trimmed (encode_windows bytes)).map lookup_b64_index = (encode_values bytes).map some := by
  induction bytes using encode_windows.induct with
  | case1 a b c rest ih =>
    have ha := a.isLt
    have hb := b.isLt
    have hc := c.isLt
    simp only [encode_windows, encode_values, List.cons_append, List.nil_append]
    rw [trimmed_cons_alphabet_char _ (by omega), trimmed_cons_alphabet_char _ (by omega),
      trimmed_cons_alphabet_char _ (by omega), trimmed_cons_alphabet_char _ (by omega)]
    simp only [List.map_cons, ih]
    rw [lookup_b64_index_alphabet_char _ (by omega), lookup_b64_index_alphabet_char _ (by omega),
      lookup_b64_index_alphabet_char _ (by omega), lookup_b64_index_alphabet_char _ (by omega)]
  | case2 a b =>
    have ha := a.isLt
    have hb := b.isLt
    simp only [encode_windows, encode_values]
    rw [trimmed_cons_alphabet_char _ (by omega), trimmed_cons_alphabet_char _ (by omega),
      trimmed_cons_alphabet_char _ (by omega), trimmed_cons_eq]
    simp only [List.map_cons, List.map_nil]
    rw [lookup_b64_index_alphabet_char _ (by omega), lookup_b64_index_alphabet_char _ (by omega),
      lookup_b64_index_alphabet_char _ (by omega)]
  | case3 a =>
    have ha := a.isLt
    simp only [encode_windows, encode_values]
    rw [trimmed_cons_alphabet_char _ (by omega), trimmed_cons_alphabet_char _ (by omega),
      trimmed_cons_eq]
    simp only [List.map_cons, List.map_nil]
    rw [lookup_b64_index_alphabet_char _ (by omega), lookup_b64_index_alphabet_char _ (by omega)]
  | case4 => rfl

theorem ofNat_eq (x : Nat) (b : U8) (h : x = b.val) : (Fin.ofNat x : U8) = b := by
  apply Fin.ext
  have hb := b.isLt
  simp only [Fin.ofNat, Fin.val_mk]
  omega

theorem decode_values_encode_values (bytes : List U8) :
    decode_values (encode_values bytes) = bytes := by
  induction bytes using encode_windows.induct with
  | case1 a b c rest ih =>
    have ha := a.isLt
    have hb := b.isLt
    have hc := c.isLt
    have e0 : (Fin.ofNat (a.val / 4 * 4 + (a.val % 4 * 16 + b.val / 16) / 16) : U8) = a :=
      ofNat_eq _ _ (by omega)
    have e1 : (Fin.ofNat ((a.val % 4 * 16 + b.val / 16) % 16 * 16
        + (b.val % 16 * 4 + c.val / 64) / 4) : U8) = b := ofNat_eq _ _ (by omega)
    have e2 : (Fin.ofNat ((b.val % 16 * 4 + c.val / 64) % 4 * 64 + c.val % 64) : U8) = c :=
      ofNat_eq _ _ (by omega)
    simp only [encode_values, List.cons_append, List.nil_append, decode_values, e0, e1, e2,
      List.append_eq, ih]
  | case2 a b =>
    have ha := a.isLt
    have hb := b.isLt
    have e0 : (Fin.ofNat (a.val / 4 * 4 + (a.val % 4 * 16 + b.val / 16) / 16) : U8) = a :=
      ofNat_eq _ _ (by omega)
    have e1 : (Fin.ofNat ((a.val % 4 * 16 + b.val / 16) % 16 * 16
        + (b.val % 16 * 4) / 4) : U8) = b := ofNat_eq _ _ (by omega)
    simp only [encode_values, decode_values, e0, e1]
  | case3 a =>
    have ha := a.isLt
    have e0 : (Fin.ofNat (a.val / 4 * 4 + (a.val % 4 * 16) / 16) : U8) = a :=
      ofNat_eq _ _ (by omega)
    simp only [encode_values, decode_values, e0]
  | case4 => rfl

theorem sextet_append_left (W P : List Nat) (k : Nat) (h : 6 * k + 6 ≤ W.length) :
    sextet (W ++ P) k = sextet W k := by
  unfold sextet
  rw [List.drop_append_of_le_length (by omega), List.take_append_of_le_length]
  simp; omega

theorem sextet_append_right (W P : List Nat) (n k : Nat) (h : W.length = 6 * n) :
    sextet (W ++ P) (n + k) = sextet P k := by
  unfold sextet
  have : 6 * (n + k) = W.length + 6 * k := by omega
  rw [this, List.drop_append]

theorem symbols_append (W P : List Nat) (n : Nat) (h : W.length = 6 * n) :
    (List.range ((W ++ P).length / 6)).map (fun k => alphabet_char (sextet (W ++ P) k))
      = (List.range n).map (fun k => alphabet_char (sextet W k)) ++
        (List.range (P.length / 6)).map (fun k => alphabet_char (sextet P k)) := by
  have hl : (W ++ P).length / 6 = n + P.length / 6 := by
    rw [List.length_append, h]; omega
  rw [hl, List.range_add, List.map_append, List.map_map]
  congr 1
  · apply List.map_congr_left
    intro k hk
    rw [List.mem_range] at hk
    rw [sextet_append_left W P k (by omega)]
  · apply List.map_congr_left
    intro k _
    simp only [Function.comp]
    rw [sextet_append_right W P n k h]

theorem pad_to_sextets_append (W X : List Nat) (n : Nat) (h : W.length = 6 * n) :
    pad_to_sextets (W ++ X) = W ++ pad_to_sextets X := by
  unfold pad_to_sextets
  have : (W ++ X).length % 6 = X.length % 6 := by
    rw [List.length_append, h]; omega
  rw [this, List.append_assoc]

theorem sextet_three_bytes (a b c : U8) :
    sextet (byte_bits a ++ byte_bits b ++ byte_bits c) 0 = a.val / 4 ∧
    sextet (byte_bits a ++ byte_bits b ++ byte_bits c) 1 = a.val % 4 * 16 + b.val / 16 ∧
    sextet (byte_bits a ++ byte_bits b ++ byte_bits c) 2 = b.val % 16 * 4 + c.val / 64 ∧
    sextet (byte_bits a ++ byte_bits b ++ byte_bits c) 3 = c.val % 64 := by
  have ha := a.isLt
  have hb := b.isLt
  have hc := c.isLt
  refine ⟨?_, ?_, ?_, ?_⟩ <;> simp [sextet, byte_bits, bits_value] <;> omega

theorem sextet_two_bytes (a b : U8) :
    (pad_to_sextets (bit_string [a, b])).length / 6 = 3 ∧
    sextet (pad_to_sextets (bit_string [a, b])) 0 = a.val / 4 ∧
    sextet (pad_to_sextets (bit_string [a, b])) 1 = a.val % 4 * 16 + b.val / 16 ∧
    sextet (pad_to_sextets (bit_string [a, b])) 2 = b.val % 16 * 4 := by
  have ha := a.isLt
  have hb := b.isLt
  refine ⟨?_, ?_, ?_, ?_⟩ <;> simp [sextet, pad_to_sextets, bit_string, byte_bits, bits_value]
    <;> omega

theorem sextet_one_byte (a : U8) :
    (pad_to_sextets (bit_string [a])).length / 6 = 2 ∧
    sextet (pad_to_sextets (bit_string [a])) 0 = a.val / 4 ∧
    sextet (pad_to_sextets (bit_string [a])) 1 = a.val % 4 * 16 := by
  have ha := a.isLt
  refine ⟨?_, ?_, ?_⟩ <;> simp [sextet, pad_to_sextets, bit_string, byte_bits, bits_value]
    <;> omega

theorem encode_reference_eq (bytes : List U8) : encode_reference bytes = encode_windows bytes := by
  induction bytes using encode_windows.induct with
  | case1 a b c rest ih =>
    have hlen : (a :: b :: c :: rest).length % 3 = rest.length % 3 := by
      simp only [List.length_cons]; omega
    have hbits : bit_string (a :: b :: c :: rest)
        = (byte_bits a ++ byte_bits b ++ byte_bits c) ++ bit_string rest := by
      simp only [bit_string, List.append_assoc]
    have hW : (byte_bits a ++ byte_bits b ++ byte_bits c).length = 6 * 4 := by
      simp [byte_bits]
    obtain ⟨e0, e1, e2, e3⟩ := sextet_three_bytes a b c
    have hr : List.range 4 = [0, 1, 2, 3] := by decide
    unfold encode_reference at ih ⊢
    simp only [] at ih ⊢
    rw [hlen, hbits, pad_to_sextets_append _ _ 4 hW, symbols_append _ _ 4 hW,
      List.append_assoc, ih]
    simp only [hr, List.map_cons, List.map_nil, e0, e1, e2, e3, encode_windows,
      List.cons_append, List.nil_append]
  | case2 a b =>
    obtain ⟨hn, e0, e1, e2⟩ := sextet_two_bytes a b
    have hr : List.range 3 = [0, 1, 2] := by decide
    unfold encode_reference
    simp only [hn, hr, List.map_cons, List.map_nil, e0, e1, e2, encode_windows]
    rfl
  | case3 a =>
    obtain ⟨hn, e0, e1⟩ := sextet_one_byte a
    have hr : List.range 2 = [0, 1] := by decide
    unfold encode_reference
    simp only [hn, hr, List.map_cons, List.map_nil, e0, e1, encode_windows]
    rfl
  | case4 => decide

theorem decode_reference_eq (vs : List Nat) : ∀ (bytes : List Nat), (∀ v ∈ vs, v < 64) →
    decode_reference vs = some bytes → (decode_values vs).map Fin.val = bytes := by
  induction vs using decode_reference.induct with
  | case1 v0 v1 v2 v3 rest ih =>
    intro bytes hv h
    have h0 : v0 < 64 := hv v0 (by simp)
    have h1 : v1 < 64 := hv v1 (by simp)
    have h2 : v2 < 64 := hv v2 (by simp)
    have h3 : v3 < 64 := hv v3 (by simp)
    have hvr : ∀ v ∈ rest, v < 64 := fun v hm => hv v (by simp [hm])
    simp only [decode_reference, Option.map_eq_some'] at h
    obtain ⟨tail, ht, rfl⟩ := h
    have := ih tail hvr ht
    simp only [decode_values, List.cons_append, List.nil_append, List.map_cons, this,
      List.cons.injEq, and_true, Fin.ofNat, bit_field, group_bits, List.foldl]
    refine ⟨?_, ?_, ?_⟩ <;> omega
  | case2 v0 v1 v2 =>
    intro bytes hv h
    have h0 : v0 < 64 := hv v0 (by simp)
    have h1 : v1 < 64 := hv v1 (by simp)
    have h2 : v2 < 64 := hv v2 (by simp)
    simp only [decode_reference, Option.some.injEq] at h
    subst h
    simp only [decode_values, List.map_cons, List.map_nil, List.cons.injEq, and_true,
      Fin.ofNat, bit_field, group_bits, List.foldl]
    refine ⟨?_, ?_⟩ <;> omega
  | case3 v0 v1 =>
    intro bytes hv h
    have h0 : v0 < 64 := hv v0 (by simp)
    have h1 : v1 < 64 := hv v1 (by simp)
    simp only [decode_reference, Option.some.injEq] at h
    subst h
    simp only [decode_values, List.map_cons, List.map_nil, List.cons.injEq, and_true,
      Fin.ofNat, bit_field, group_bits, List.foldl]
    omega
  | case4 v0 =>
    intro bytes _ h
    simp [decode_reference] at h
  | case5 =>
    intro bytes _ h
    simp only [decode_reference, Option.some.injEq] at h
    subst h
    rfl

theorem decode_values_length (vs : List Nat) :
    (decode_values vs).length = 3 * (vs.length / 4) + [0, 0, 1, 2].getD (vs.length % 4) 0 := by
  induction vs using decode_reference.induct with
  | case1 v0 v1 v2 v3 rest ih =>
    have e1 : (v0 :: v1 :: v2 :: v3 :: rest).length / 4 = rest.length / 4 + 1 := by
      simp only [List.length_cons]; omega
    have e2 : (v0 :: v1 :: v2 :: v3 :: rest).length % 4 = rest.length % 4 := by
      simp only [List.length_cons]; omega
    rw [e1, e2]
    simp only [decode_values, List.cons_append, List.nil_append, List.length_cons, ih]
    omega
  | case2 v0 v1 v2 => simp [decode_values]
  | case3 v0 v1 => simp [decode_values]
  | case4 v0 => simp [decode_values]
  | case5 => simp [decode_values]

theorem encode_values_lt (bytes : List U8) : ∀ v ∈ encode_values bytes, v < 64 := by
  induction bytes using encode_windows.induct with
  | case1 a b c rest ih =>
    have ha := a.isLt
    have hb := b.isLt
    have hc := c.isLt
    intro v hv
    simp only [encode_values, List.cons_append, List.nil_append, List.mem_cons] at hv
    rcases hv with rfl | rfl | rfl | rfl | h
    · omega
    · omega
    · omega
    · omega
    · exact ih v h
  | case2 a b =>
    have ha := a.isLt
    have hb := b.isLt
    intro v hv
    simp only [encode_values, List.mem_cons, List.not_mem_nil, or_false] at hv
    rcases hv with rfl | rfl | rfl <;> omega
  | case3 a =>
    have ha := a.isLt
    intro v hv
    simp only [encode_values, List.mem_cons, List.not_mem_nil, or_false] at hv
    rcases hv with rfl | rfl <;> omega
  | case4 => intro v hv; simp [encode_values] at hv

theorem encode_windows_eq_symbols (bytes : List U8) :
    encode_windows bytes = (encode_values bytes).map alphabet_char ++
      List.replicate (padding_count (bytes.length % 3)) '=' := by
  induction bytes using encode_windows.induct with
  | case1 a b c rest ih =>
    have hlen : (a :: b :: c :: rest).length % 3 = rest.length % 3 := by
      simp only [List.length_cons]; omega
    rw [hlen]
    simp only [encode_windows, encode_values, List.cons_append, List.nil_append, List.map_cons,
      ih]
  | case2 a b => rfl
  | case3 a => rfl
  | case4 => rfl

theorem encode_windows_length (bytes : List U8) :
    (encode_windows bytes).length = 4 * ((bytes.length + 2) / 3) := by
  induction bytes using encode_windows.induct with
  | case1 a b c rest ih =>
    simp only [encode_windows, List.cons_append, List.nil_append, List.length_cons, ih]
    omega
  | case2 a b => simp [encode_windows]
  | case3 a => simp [encode_windows]
  | case4 => simp [encode_windows]

theorem ceil_div_three (n : Nat) : ⌈(n : ℚ) / 3⌉₊ = (n + 2) / 3 := by
  apply le_antisymm
  · rw [Nat.ceil_le, div_le_iff₀ (by norm_num)]
    have h : n ≤ (n + 2) / 3 * 3 := by omega
    exact_mod_cast h
  · rcases Nat.eq_zero_or_pos ((n + 2) / 3) with h0 | hpos
    · omega
    · have h : ((n + 2) / 3 - 1) * 3 < n := by omega
      have h' : (((n + 2) / 3 - 1 : ℕ) : ℚ) < (n : ℚ) / 3 := by
        rw [lt_div_iff₀ (by norm_num)]
        exact_mod_cast h
      have := Nat.lt_ceil.mpr h'
      omega

theorem decode_trimmed (s : List Char) (stderr : List String) :
    decode (trimmed s) stderr = decode s stderr := by
  simp only [decode, trimmed, List.takeWhile_idem]

theorem decode_error_iff (s : List Char) (stderr : List String) :
    (decode s stderr).1 = some (Except.error DecodeError.InvalidByte) ↔
      ∃ c ∈ trimmed s, c ∉ alphabet := by
  constructor
  · intro h
    by_contra hn
    have hall : ∀ c ∈ trimmed s, c ∈ alphabet := by
      intro c hc
      by_contra hc'
      exact hn ⟨c, hc, hc'⟩
    obtain ⟨vs, hvs, -, -⟩ := exists_values _ hall
    rw [decode_of_values s stderr vs hvs] at h
    simp at h
  · intro h
    rw [decode_of_not_alphabet s stderr h]

theorem decode_ok_iff (s : List Char) (stderr : List String) :
    (∃ B, (decode s stderr).1 = some (Except.ok B)) ↔ ∀ c ∈ trimmed s, c ∈ alphabet := by
  constructor
  · rintro ⟨B, hB⟩ c hc
    by_contra hc'
    rw [decode_of_not_alphabet s stderr ⟨c, hc, hc'⟩] at hB
    simp at hB
  · intro hall
    obtain ⟨vs, hvs, -, -⟩ := exists_values _ hall
    exact ⟨_, by rw [decode_of_values s stderr vs hvs]⟩

theorem encode_windows_bit_fields :
    (∀ (a b c : U8) (rest : List U8),
      encode_windows (a :: b :: c :: rest) =
        [alphabet_char (bit_field (a.val * 2 ^ 16 + b.val * 2 ^ 8 + c.val) 23 18),
          alphabet_char (bit_field (a.val * 2 ^ 16 + b.val * 2 ^ 8 + c.val) 17 12),
          alphabet_char (bit_field (a.val * 2 ^ 16 + b.val * 2 ^ 8 + c.val) 11 6),
          alphabet_char (bit_field (a.val * 2 ^ 16 + b.val * 2 ^ 8 + c.val) 5 0)] ++
        encode_windows rest) ∧
    (∀ a : U8,
      encode_windows [a] =
        [alphabet_char (bit_field a.val 7 2), alphabet_char (bit_field a.val 1 0 <<< 4),
          '=', '=']) ∧
    (∀ a b : U8,
      encode_windows [a, b] =
        [alphabet_char (bit_field (a.val * 2 ^ 8 + b.val) 15 10),
          alphabet_char (bit_field (a.val * 2 ^ 8 + b.val) 9 4),
          alphabet_char (bit_field (a.val * 2 ^ 8 + b.val) 3 0 <<< 2), '=']) := by
  refine ⟨?_, ?_, ?_⟩
  · intro a b c rest
    have ha := a.isLt
    have hb := b.isLt
    have hc := c.isLt
    have e0 : bit_field (a.val * 2 ^ 16 + b.val * 2 ^ 8 + c.val) 23 18 = a.val / 4 := by
      simp only [bit_field]; omega
    have e1 : bit_field (a.val * 2 ^ 16 + b.val * 2 ^ 8 + c.val) 17 12
        = a.val % 4 * 16 + b.val / 16 := by
      simp only [bit_field]; omega
    have e2 : bit_field (a.val * 2 ^ 16 + b.val * 2 ^ 8 + c.val) 11 6
        = b.val % 16 * 4 + c.val / 64 := by
      simp only [bit_field]; omega
    have e3 : bit_field (a.val * 2 ^ 16 + b.val * 2 ^ 8 + c.val) 5 0 = c.val % 64 := by
      simp only [bit_field]; omega
    rw [e0, e1, e2, e3]
    simp only [encode_windows]
  · intro a
    have ha := a.isLt
    have e0 : bit_field a.val 7 2 = a.val / 4 := by
      simp only [bit_field]; omega
    have e1 : bit_field a.val 1 0 <<< 4 = a.val % 4 * 16 := by
      simp only [bit_field, Nat.shiftLeft_eq]; omega
    rw [e0, e1]
    simp only [encode_windows]
  · intro a b
    have ha := a.isLt
    have hb := b.isLt
    have e0 : bit_field (a.val * 2 ^ 8 + b.val) 15 10 = a.val / 4 := by
      simp only [bit_field]; omega
    have e1 : bit_field (a.val * 2 ^ 8 + b.val) 9 4 = a.val % 4 * 16 + b.val / 16 := by
      simp only [bit_field]; omega
    have e2 : bit_field (a.val * 2 ^ 8 + b.val) 3 0 <<< 2 = b.val % 16 * 4 := by
      simp only [bit_field, Nat.shiftLeft_eq]; omega
    rw [e0, e1, e2]
    simp only [encode_windows]

theorem decode_ok_length (s : List Char) (stderr : List String) (B : List U8)
    (h : (decode s stderr).1 = some (Except.ok B)) :
    B.length = 3 * ((trimmed s).length / 4) + [0, 0, 1, 2].getD ((trimmed s).length % 4) 0 := by
  have hall := (decode_ok_iff s stderr).mp ⟨B, h⟩
  obtain ⟨vs, hvs, hlen, -⟩ := exists_values _ hall
  rw [decode_of_values s stderr vs hvs] at h
  simp only [Option.some.injEq, Except.ok.injEq] at h
  rw [← h, decode_values_length, hlen]

set_option maxHeartbeats 1000000 in
theorem lookup_b64_code_of_ge (v : Nat) (h : 64 ≤ v) : lookup_b64_code v = none := by
  unfold lookup_b64_code
  split
  all_goals first
    | rfl
    | omega

theorem rfc4648_char_of_lt (v : Nat) (h : v < 64) : lookup_b64_code v = rfc4648_char v := by
  interval_cases v <;> rfl

theorem shl_shr_lt (buf_bit l : Nat) : shl_shr buf_bit l 26 < 64 := by
  rw [shl_shr_eq]
  have : buf_bit * 2 ^ l % 2 ^ 32 < 2 ^ 32 := Nat.mod_lt _ (by decide)
  omega

theorem get_b64_code_isSome_iff (value : Nat) :
    (∃ c, get_b64_code value = some c) ↔ value % 256 < 64 := by
  unfold get_b64_code
  constructor
  · rintro ⟨c, hc⟩
    by_contra hn
    rw [lookup_b64_code_of_ge _ (by omega)] at hc
    exact absurd hc (by simp)
  · intro h
    exact ⟨_, lookup_b64_code_of_lt _ h⟩

theorem trimmed_append_eq (s t : List Char) (h : '=' ∉ s) : trimmed (s ++ '=' :: t) = s := by
  unfold trimmed
  induction s with
  | nil => simp [List.takeWhile_cons]
  | cons c s ih =>
    have hc : c ≠ '=' := fun he => h (by simp [he])
    have hs : '=' ∉ s := fun hm => h (List.mem_cons_of_mem _ hm)
    simp [List.takeWhile_cons, hc, ih hs]

theorem trimmed_of_not_mem (s : List Char) (h : '=' ∉ s) : trimmed s = s := by
  unfold trimmed
  rw [List.takeWhile_eq_self_iff]
  intro c hc
  simp only [bne_iff_ne, ne_eq]
  intro he
  exact h (he ▸ hc)

theorem eq_not_mem_of_alphabet (s : List Char) (h : ∀ c ∈ s, c ∈ alphabet) : '=' ∉ s :=
  fun hm => eq_not_mem_alphabet (h _ hm)

theorem decode_append_group (p g : List Char) (stderr : List String) (vp vg : List Nat)
    (hp : p.map lookup_b64_index = vp.map some) (hg : g.map lookup_b64_index = vg.map some)
    (hlen : p.length % 4 = 0) :
    decode (p ++ g) stderr
      = (some (Except.ok (decode_values vp ++ decode_values vg)), stderr) := by
  obtain ⟨-, hlp, hap⟩ := values_lt p vp hp
  obtain ⟨-, -, hag⟩ := values_lt g vg hg
  have hall : ∀ c ∈ p ++ g, c ∈ alphabet := by
    intro c hc
    rcases List.mem_append.mp hc with h | h
    · exact hap c h
    · exact hag c h
  have htr : trimmed (p ++ g) = p ++ g := trimmed_of_not_mem _ (eq_not_mem_of_alphabet _ hall)
  have hv : (trimmed (p ++ g)).map lookup_b64_index = (vp ++ vg).map some := by
    rw [htr, List.map_append, List.map_append, hp, hg]
  rw [decode_of_values _ stderr _ hv,
    decode_values_append (vp.length / 4) vp vg (by omega)]

theorem encode_decode_values (vs : List Nat) : (∀ v ∈ vs, v < 64) → vs.length % 4 ≠ 1 →
    (vs.length % 4 = 2 → ∀ v, vs.getLast? = some v → v % 16 = 0) →
    (vs.length % 4 = 3 → ∀ v, vs.getLast? = some v → v % 4 = 0) →
    encode_windows (decode_values vs)
      = vs.map alphabet_char ++ List.replicate ((4 - vs.length % 4) % 4) '=' := by
  induction vs using decode_reference.induct with
  | case1 v0 v1 v2 v3 rest ih =>
    intro hv hne h2 h3
    have h0 : v0 < 64 := hv v0 (by simp)
    have h1 : v1 < 64 := hv v1 (by simp)
    have h2' : v2 < 64 := hv v2 (by simp)
    have h3' : v3 < 64 := hv v3 (by simp)
    have hvr : ∀ v ∈ rest, v < 64 := fun v hm => hv v (by simp [hm])
    have hl : (v0 :: v1 :: v2 :: v3 :: rest).length % 4 = rest.length % 4 := by
      simp only [List.length_cons]; omega
    have hlast : rest ≠ [] →
        (v0 :: v1 :: v2 :: v3 :: rest).getLast? = rest.getLast? := by
      intro hr
      obtain ⟨x, xs, rfl⟩ := List.exists_cons_of_ne_nil hr
      simp [List.getLast?_cons_cons]
    have hne_nil : rest.length % 4 ≠ 0 → rest ≠ [] := by
      intro h hr
      rw [hr] at h
      exact h rfl
    rw [hl] at hne h2 h3 ⊢
    have ihr := ih hvr hne
      (fun h v hv' => h2 h v (by rw [hlast (hne_nil (by omega))]; exact hv'))
      (fun h v hv' => h3 h v (by rw [hlast (hne_nil (by omega))]; exact hv'))
    have e0 : (Fin.ofNat (v0 * 4 + v1 / 16) : U8).val / 4 = v0 := by
      simp only [Fin.ofNat, Fin.val_mk]; omega
    have e1 : (Fin.ofNat (v0 * 4 + v1 / 16) : U8).val % 4 * 16
        + (Fin.ofNat (v1 % 16 * 16 + v2 / 4) : U8).val / 16 = v1 := by
      simp only [Fin.ofNat, Fin.val_mk]; omega
    have e2 : (Fin.ofNat (v1 % 16 * 16 + v2 / 4) : U8).val % 16 * 4
        + (Fin.ofNat (v2 % 4 * 64 + v3) : U8).val / 64 = v2 := by
      simp only [Fin.ofNat, Fin.val_mk]; omega
    have e3 : (Fin.ofNat (v2 % 4 * 64 + v3) : U8).val % 64 = v3 := by
      simp only [Fin.ofNat, Fin.val_mk]; omega
    simp only [decode_values, List.cons_append, List.nil_append, List.append_eq, encode_windows,
      e0, e1, e2, e3, ihr, List.map_cons]
  | case2 v0 v1 v2 =>
    intro hv _ _ h3
    have h0 : v0 < 64 := hv v0 (by simp)
    have h1 : v1 < 64 := hv v1 (by simp)
    have h2 : v2 < 64 := hv v2 (by simp)
    have hz : v2 % 4 = 0 := h3 (by simp) v2 (by simp)
    have e0 : (Fin.ofNat (v0 * 4 + v1 / 16) : U8).val / 4 = v0 := by
      simp only [Fin.ofNat, Fin.val_mk]; omega
    have e1 : (Fin.ofNat (v0 * 4 + v1 / 16) : U8).val % 4 * 16
        + (Fin.ofNat (v1 % 16 * 16 + v2 / 4) : U8).val / 16 = v1 := by
      simp only [Fin.ofNat, Fin.val_mk]; omega
    have e2 : (Fin.ofNat (v1 % 16 * 16 + v2 / 4) : U8).val % 16 * 4 = v2 := by
      simp only [Fin.ofNat, Fin.val_mk]; omega
    simp only [decode_values, encode_windows, e0, e1, e2, List.map_cons, List.map_nil]
    rfl
  | case3 v0 v1 =>
    intro hv _ h2 _
    have h0 : v0 < 64 := hv v0 (by simp)
    have h1 : v1 < 64 := hv v1 (by simp)
    have hz : v1 % 16 = 0 := h2 (by simp) v1 (by simp)
    have e0 : (Fin.ofNat (v0 * 4 + v1 / 16) : U8).val / 4 = v0 := by
      simp only [Fin.ofNat, Fin.val_mk]; omega
    have e1 : (Fin.ofNat (v0 * 4 + v1 / 16) : U8).val % 4 * 16 = v1 := by
      simp only [Fin.ofNat, Fin.val_mk]; omega
    simp only [decode_values, encode_windows, e0, e1, List.map_cons, List.map_nil]
    rfl
  | case4 v0 =>
    intro _ hne _ _
    exact absurd rfl hne
  | case5 =>
    intro _ _ _ _
    rfl

theorem map_alphabet_char_values (data : List Char) : ∀ (vs : List Nat),
    data.map lookup_b64_index = vs.map some → vs.map alphabet_char = data := by
  induction data with
  | nil =>
    intro vs h
    cases vs with
    | nil => rfl
    | cons v vs => simp at h
  | cons c data ih =>
    intro vs h
    cases vs with
    | nil => simp at h
    | cons v vs =>
      simp only [List.map_cons, List.cons.injEq] at h
      rw [List.map_cons, ih vs h.2, ← (lookup_b64_index_some c v h.1).2]

theorem getLast_values (data : List Char) (vs : List Nat)
    (h : data.map lookup_b64_index = vs.map some) (v : Nat) (hv : vs.getLast? = some v) :
    ∃ c, data.getLast? = some c ∧ lookup_b64_index c = some v := by
  have h1 : (data.map lookup_b64_index).getLast? = (vs.map some).getLast? := by rw [h]
  rw [List.getLast?_map, List.getLast?_map, hv] at h1
  cases hd : data.getLast? with
  | none => rw [hd] at h1; simp at h1
  | some c =>
    rw [hd] at h1
    simp only [Option.map_some'] at h1
    exact ⟨c, rfl, Option.some.inj h1⟩

/-! ## The claims -/

/-- C1: round trip.  For every byte sequence `B`, of any length, `encode B` returns a
string `E`, and `decode E` succeeds and returns exactly `B`. -/
theorem decode_encode_round_trip (B : List U8) (stderr : List String) :
    ∃ E, encode B = some E ∧ (decode E stderr).1 = some (Except.ok B) := by
  refine ⟨encode_windows B, encode_eq B, ?_⟩
  rw [decode_of_values _ stderr _ (trimmed_encode_windows B), decode_values_encode_values]

/-- C2: `encode` equals the RFC 4648 bit-level reference.  For every byte sequence `B`,
`encode B` returns `encode_reference B`, whose `k`-th symbol is the alphabet character
of the 6-bit value at bits `[6k, 6k+6)` of the big-endian bit string of `B` padded with
zero bits to a multiple of 6.  Window by window: three bytes yield the characters of
bits `[23:18]`, `[17:12]`, `[11:6]`, `[5:0]`; one leftover byte those of bits `[7:2]` and
`[1:0] << 4`, then `==`; two leftover bytes those of bits `[15:10]`, `[9:4]` and
`[3:0] << 2`, then `=`.  Vectors: `4D 61 6E` gives `TWFu`, `4D 61` gives `TWE=`, `4D`
gives `TQ==`. -/
theorem encode_eq_reference :
    (∀ B : List U8, encode B = some (encode_reference B)) ∧
    (∀ (a b c : U8) (rest : List U8),
      encode_reference (a :: b :: c :: rest) =
        [alphabet_char (bit_field (a.val * 2 ^ 16 + b.val * 2 ^ 8 + c.val) 23 18),
          alphabet_char (bit_field (a.val * 2 ^ 16 + b.val * 2 ^ 8 + c.val) 17 12),
          alphabet_char (bit_field (a.val * 2 ^ 16 + b.val * 2 ^ 8 + c.val) 11 6),
          alphabet_char (bit_field (a.val * 2 ^ 16 + b.val * 2 ^ 8 + c.val) 5 0)] ++
        encode_reference rest) ∧
    (∀ a : U8,
      encode_reference [a] =
        [alphabet_char (bit_field a.val 7 2), alphabet_char (bit_field a.val 1 0 <<< 4),
          '=', '=']) ∧
    (∀ a b : U8,
      encode_reference [a, b] =
        [alphabet_char (bit_field (a.val * 2 ^ 8 + b.val) 15 10),
          alphabet_char (bit_field (a.val * 2 ^ 8 + b.val) 9 4),
          alphabet_char (bit_field (a.val * 2 ^ 8 + b.val) 3 0 <<< 2), '=']) ∧
    encode [0x4D, 0x61, 0x6E] = some "TWFu".toList ∧
    encode [0x4D, 0x61] = some "TWE=".toList ∧
    encode [0x4D] = some "TQ==".toList := by
  obtain ⟨h3, h1, h2⟩ := encode_windows_bit_fields
  refine ⟨?_, ?_, ?_, ?_, by decide, by decide, by decide⟩
  · intro B
    rw [encode_eq, encode_reference_eq]
  · intro a b c rest
    rw [encode_reference_eq, encode_reference_eq, h3]
  · intro a
    rw [encode_reference_eq, h1]
  · intro a b
    rw [encode_reference_eq, h2]

/-- C3: for every byte sequence `B` of length `N`, `encode B` returns a string of length
exactly `4 * ceil (N / 3)`, which is a multiple of 4. -/
theorem encode_length (B : List U8) :
    ∃ E, encode B = some E ∧ E.length = 4 * ⌈(B.length : ℚ) / 3⌉₊ ∧ E.length % 4 = 0 := by
  refine ⟨encode_windows B, encode_eq B, ?_, ?_⟩
  · rw [encode_windows_length, ceil_div_three]
  · rw [encode_windows_length]; omega

/-- C4: for every byte sequence `B`, `encode B` is a sequence of alphabet characters,
none of them `=`, followed by a suffix of `=` only, whose count is 0, 2, 1 for
`length B % 3 = 0, 1, 2`. -/
theorem encode_padding (B : List U8) :
    ∃ data, encode B = some (data ++ List.replicate ([0, 2, 1].getD (B.length % 3) 0) '=') ∧
      (∀ c ∈ data, c ∈ alphabet) ∧ (∀ c ∈ data, c ≠ '=') := by
  have hmem : ∀ c ∈ (encode_values B).map alphabet_char, c ∈ alphabet := by
    intro c hc
    obtain ⟨v, hv, rfl⟩ := List.mem_map.mp hc
    exact alphabet_char_mem v (encode_values_lt B v hv)
  have hk : padding_count (B.length % 3) = [0, 2, 1].getD (B.length % 3) 0 := by
    have h3 : B.length % 3 < 3 := Nat.mod_lt _ (by decide)
    interval_cases B.length % 3 <;> rfl
  refine ⟨(encode_values B).map alphabet_char, ?_, hmem, ?_⟩
  · rw [encode_eq, encode_windows_eq_symbols, hk]
  · intro c hc he
    rw [he] at hc
    exact eq_not_mem_alphabet (hmem _ hc)

/-- C5, as the code behaves: the length of the trimmed part is not checked.  For every
input whose trimmed part has length `M` congruent to 1 modulo 4, `decode` fails with
`InvalidByte` exactly when the trimmed part contains a character outside the alphabet;
when all its characters are alphabet characters `decode` succeeds, with `3 * (M / 4)`
bytes. -/
theorem decode_dangling_symbol (s : List Char) (stderr : List String)
    (h : (trimmed s).length % 4 = 1) :
    ((decode s stderr).1 = some (Except.error DecodeError.InvalidByte) ↔
      ∃ c ∈ trimmed s, c ∉ alphabet) ∧
    ((∃ B, (decode s stderr).1 = some (Except.ok B) ∧ B.length = 3 * ((trimmed s).length / 4)) ↔
      ∀ c ∈ trimmed s, c ∈ alphabet) := by
  refine ⟨decode_error_iff s stderr, ?_, ?_⟩
  · rintro ⟨B, hB, -⟩
    exact (decode_ok_iff s stderr).mp ⟨B, hB⟩
  · intro hall
    obtain ⟨B, hB⟩ := (decode_ok_iff s stderr).mpr hall
    refine ⟨B, hB, ?_⟩
    rw [decode_ok_length s stderr B hB, h]
    rfl

/-- Witness of C5 as the code behaves, at `!===`. -/
theorem decode_dangling_symbol_witness :
    (trimmed "!===".toList).length % 4 = 1 ∧
    (((decode "!===".toList []).1 = some (Except.error DecodeError.InvalidByte) ↔
      ∃ c ∈ trimmed "!===".toList, c ∉ alphabet) ∧
    ((∃ B, (decode "!===".toList []).1 = some (Except.ok B) ∧
        B.length = 3 * ((trimmed "!===".toList).length / 4)) ↔
      ∀ c ∈ trimmed "!===".toList, c ∈ alphabet)) :=
  ⟨by decide, decode_dangling_symbol "!===".toList [] (by decide)⟩

/-- Counterexample to C5 as stated: the trimmed part of `T===` has length 1, and `decode`
succeeds on it with the empty byte sequence instead of failing with `InvalidByte`. -/
theorem decode_dangling_symbol_accepted :
    (trimmed "T===".toList).length % 4 = 1 ∧
    (decode "T===".toList []).1 = some (Except.ok []) ∧
    (decode "T===".toList []).1 ≠ some (Except.error DecodeError.InvalidByte) := by
  have h : (decode "T===".toList []).1 = some (Except.ok []) := by rfl
  refine ⟨by decide, h, ?_⟩
  rw [h]
  simp

/-- C6, as the code behaves: for every input whose part before the first `=` contains a
character outside the alphabet, `decode` fails with `InvalidByte`.  The characters from
the first `=` on are not inspected. -/
theorem decode_invalid_character (s : List Char) (stderr : List String)
    (h : ∃ c ∈ trimmed s, c ∉ alphabet) :
    (decode s stderr).1 = some (Except.error DecodeError.InvalidByte) :=
  (decode_error_iff s stderr).mpr h

/-- Witness of C6 as the code behaves, at `T!Fu`. -/
theorem decode_invalid_character_witness :
    (∃ c ∈ trimmed "T!Fu".toList, c ∉ alphabet) ∧
    (decode "T!Fu".toList []).1 = some (Except.error DecodeError.InvalidByte) :=
  ⟨⟨'!', by decide, by decide⟩,
    decode_invalid_character "T!Fu".toList [] ⟨'!', by decide, by decide⟩⟩

/-- Counterexample to C6 as stated: `TQ==!` contains `!`, which is outside
`[A-Za-z0-9+/=]`, and `decode` succeeds on it. -/
theorem decode_invalid_character_after_padding :
    '!' ∈ "TQ==!".toList ∧ '!' ∉ alphabet ∧ '!' ≠ '=' ∧
    (decode "TQ==!".toList []).1 = some (Except.ok [0x4D]) ∧
    (decode "TQ==!".toList []).1 ≠ some (Except.error DecodeError.InvalidByte) := by
  have h : (decode "TQ==!".toList []).1 = some (Except.ok [0x4D]) := by rfl
  refine ⟨by decide, by decide, by decide, h, ?_⟩
  rw [h]
  simp

/-- C7, as the code behaves: padding that is not at the true end is not rejected.  For
every input in which some character other than `=` occurs after the first `=`, `decode`
returns what it returns on the part before the first `=`, so it fails exactly when that
part contains a character outside the alphabet. -/
theorem decode_embedded_padding (s : List Char) (stderr : List String)
    (_h : ∃ c ∈ s.dropWhile (fun c => c != '='), c ≠ '=') :
    (decode s stderr).1 = (decode (trimmed s) stderr).1 ∧
    ((decode s stderr).1 = some (Except.error DecodeError.InvalidByte) ↔
      ∃ c ∈ trimmed s, c ∉ alphabet) :=
  ⟨by rw [decode_trimmed], decode_error_iff s stderr⟩

/-- Witness of C7 as the code behaves, at `TWFuTWE=TQ==`. -/
theorem decode_embedded_padding_witness :
    (∃ c ∈ "TWFuTWE=TQ==".toList.dropWhile (fun c => c != '='), c ≠ '=') ∧
    ((decode "TWFuTWE=TQ==".toList []).1 = (decode (trimmed "TWFuTWE=TQ==".toList) []).1 ∧
    ((decode "TWFuTWE=TQ==".toList []).1 = some (Except.error DecodeError.InvalidByte) ↔
      ∃ c ∈ trimmed "TWFuTWE=TQ==".toList, c ∉ alphabet)) :=
  ⟨⟨'T', by decide, by decide⟩,
    decode_embedded_padding "TWFuTWE=TQ==".toList [] ⟨'T', by decide, by decide⟩⟩

/-- Counterexample to C7 as stated: in `TWFuTWE=TQ==` the characters `TQ` follow the
first `=`, and `decode` succeeds with the bytes `4D 61 6E 4D 61`. -/
theorem decode_embedded_padding_accepted :
    (∃ c ∈ "TWFuTWE=TQ==".toList.dropWhile (fun c => c != '='), c ≠ '=') ∧
    (decode "TWFuTWE=TQ==".toList []).1 = some (Except.ok [0x4D, 0x61, 0x6E, 0x4D, 0x61]) ∧
    (decode "TWFuTWE=TQ==".toList []).1 ≠ some (Except.error DecodeError.InvalidByte) := by
  have h : (decode "TWFuTWE=TQ==".toList []).1
      = some (Except.ok [0x4D, 0x61, 0x6E, 0x4D, 0x61]) := by rfl
  refine ⟨⟨'T', by decide, by decide⟩, h, ?_⟩
  rw [h]
  simp

/-- C8: `InvalidByte` is the only failure and is raised exactly for bad data symbols.
For every input whose trimmed part has length not congruent to 1 modulo 4, `decode`
fails with `InvalidByte` if and only if some character of the trimmed part is not an
alphabet character; otherwise it succeeds with a byte sequence. -/
theorem decode_fails_iff (s : List Char) (stderr : List String)
    (_h : (trimmed s).length % 4 ≠ 1) :
    ((decode s stderr).1 = some (Except.error DecodeError.InvalidByte) ↔
      ∃ c ∈ trimmed s, c ∉ alphabet) ∧
    ((∃ B, (decode s stderr).1 = some (Except.ok B)) ↔ ¬ ∃ c ∈ trimmed s, c ∉ alphabet) := by
  refine ⟨decode_error_iff s stderr, ?_⟩
  rw [decode_ok_iff]
  constructor
  · rintro hall ⟨c, hc, hn⟩
    exact hn (hall c hc)
  · intro hn c hc
    by_contra hc'
    exact hn ⟨c, hc, hc'⟩

/-- Witness of C8, at `T!==`. -/
theorem decode_fails_iff_witness :
    (trimmed "T!==".toList).length % 4 ≠ 1 ∧
    (((decode "T!==".toList []).1 = some (Except.error DecodeError.InvalidByte) ↔
      ∃ c ∈ trimmed "T!==".toList, c ∉ alphabet) ∧
    ((∃ B, (decode "T!==".toList []).1 = some (Except.ok B)) ↔
      ¬ ∃ c ∈ trimmed "T!==".toList, c ∉ alphabet)) :=
  ⟨by decide, decode_fails_iff "T!==".toList [] (by decide)⟩

/-- C9: for every input on which `decode` succeeds and whose trimmed length `M` is not
congruent to 1 modulo 4, the decoded byte sequence has length `3 * (M / 4) + r`, where
`r` is 0, 1, 2 for `M % 4 = 0, 2, 3`. -/
theorem decode_length (s : List Char) (stderr : List String) (B : List U8)
    (hok : (decode s stderr).1 = some (Except.ok B)) (hM : (trimmed s).length % 4 ≠ 1) :
    B.length = 3 * ((trimmed s).length / 4) +
      (if (trimmed s).length % 4 = 0 then 0 else if (trimmed s).length % 4 = 2 then 1 else 2) := by
  rw [decode_ok_length s stderr B hok]
  have h4 : (trimmed s).length % 4 < 4 := Nat.mod_lt _ (by decide)
  interval_cases hm : (trimmed s).length % 4
  · rfl
  · exact absurd rfl hM
  · rfl
  · rfl

/-- Witness of C9, at `TWE=`. -/
theorem decode_length_witness :
    (decode "TWE=".toList []).1 = some (Except.ok [0x4D, 0x61]) ∧
    (trimmed "TWE=".toList).length % 4 ≠ 1 ∧
    ([0x4D, 0x61] : List U8).length = 3 * ((trimmed "TWE=".toList).length / 4) +
      (if (trimmed "TWE=".toList).length % 4 = 0 then 0
        else if (trimmed "TWE=".toList).length % 4 = 2 then 1 else 2) :=
  ⟨rfl, by decide, decode_length "TWE=".toList [] [0x4D, 0x61] rfl (by decide)⟩

/-- C10: `decode` equals the bit-level reference on valid input.  For every input whose
trimmed part consists of alphabet characters with 6-bit values `vs`, and on which the
reference is defined (a full 4-symbol window yields the bytes at bits `[23:16]`,
`[15:8]`, `[7:0]`, a final group of 2 symbols the byte at bits `[11:4]`, a final group
of 3 symbols the bytes at bits `[17:10]` and `[9:2]`), `decode` succeeds with exactly
the bytes of the reference. -/
theorem decode_eq_reference (s : List Char) (stderr : List String) (vs bytes : List Nat)
    (hvs : (trimmed s).map lookup_b64_index = vs.map some)
    (href : decode_reference vs = some bytes) :
    ∃ B, (decode s stderr).1 = some (Except.ok B) ∧ B.map Fin.val = bytes := by
  refine ⟨decode_values vs, by rw [decode_of_values s stderr vs hvs], ?_⟩
  exact decode_reference_eq vs bytes (values_lt _ vs hvs).1 href

/-- Witness of C10: the vectors `TWFu`, `TWE=` and `TQ==`. -/
theorem decode_eq_reference_witness :
    ((trimmed "TWFu".toList).map lookup_b64_index = [19, 22, 5, 46].map some ∧
      decode_reference [19, 22, 5, 46] = some [0x4D, 0x61, 0x6E] ∧
      ∃ B, (decode "TWFu".toList []).1 = some (Except.ok B) ∧
        B.map Fin.val = [0x4D, 0x61, 0x6E]) ∧
    (∃ B, (decode "TWE=".toList []).1 = some (Except.ok B) ∧ B.map Fin.val = [0x4D, 0x61]) ∧
    (∃ B, (decode "TQ==".toList []).1 = some (Except.ok B) ∧ B.map Fin.val = [0x4D]) :=
  ⟨⟨by decide, by decide,
      decode_eq_reference "TWFu".toList [] [19, 22, 5, 46] [0x4D, 0x61, 0x6E]
        (by decide) (by decide)⟩,
    decode_eq_reference "TWE=".toList [] [19, 22, 4] [0x4D, 0x61] (by decide) (by decide),
    decode_eq_reference "TQ==".toList [] [19, 16] [0x4D] (by decide) (by decide)⟩

/-- C11: the forward lookup is the RFC 4648 table.  For every value `v`,
`lookup_b64_code v` is the character with code `'A' + v` for `v` in 0..25,
`'a' + (v - 26)` for 26..51, `'0' + (v - 52)` for 52..61, `+` for 62, `/` for 63, and
no character for `v` from 64 on. -/
theorem lookup_b64_code_rfc4648 (v : Nat) : lookup_b64_code v = rfc4648_char v := by
  rcases Nat.lt_or_ge v 64 with h | h
  · exact rfc4648_char_of_lt v h
  · rw [lookup_b64_code_of_ge v h]
    unfold rfc4648_char
    rw [if_neg (by omega), if_neg (by omega), if_neg (by omega), if_neg (by omega),
      if_neg (by omega)]

/-- C12: `encode` is total.  For every byte sequence `encode` returns a string; a call
of `get_b64_code` dereferences a non-empty optional exactly when its argument, narrowed
to 8 bits, is below 64; the first argument of a window, `buf_bit >> 18`, and every
argument of the form `buf_bit << l >> 26` are below 64; and when the length is not a
multiple of 3 the first loop leaves the iterator on an element of the input. -/
theorem encode_total :
    (∀ B : List U8, ∃ E, encode B = some E) ∧
    (∀ value : Nat, (∃ c, get_b64_code value = some c) ↔ value % 256 < 64) ∧
    (∀ a b c : U8, ([b, c].foldl encode_step a.val) >>> 18 < 64) ∧
    (∀ buf_bit l : Nat, shl_shr buf_bit l 26 < 64) ∧
    (∀ B : List U8, B.length % 3 ≠ 0 →
      ∃ encoded first rest, encode_loop (B.length / 3) B [] = some (encoded, first :: rest)) := by
  refine ⟨fun B => ⟨_, encode_eq B⟩, get_b64_code_isSome_iff, ?_, shl_shr_lt, ?_⟩
  · intro a b c
    have ha := a.isLt
    have hb := b.isLt
    have hc := c.isLt
    rw [encode_window_eq, Nat.shiftRight_eq_div_pow]
    omega
  · intro B hB
    rw [encode_loop_eq _ B [] (by omega)]
    have hlen : (B.drop (3 * (B.length / 3))).length = B.length % 3 := by
      simp; omega
    match hd : B.drop (3 * (B.length / 3)), hlen with
    | [], h => simp at h; omega
    | first :: rest, _ => exact ⟨_, first, rest, rfl⟩

/-- C13: empty input in both directions.  `encode` of the empty byte sequence is the
empty string, and `decode` of the empty string succeeds with the empty byte sequence. -/
theorem encode_decode_empty (stderr : List String) :
    encode [] = some [] ∧ (decode [] stderr).1 = some (Except.ok []) :=
  ⟨rfl, rfl⟩

/-- C14, as the code behaves: the result of `decode` depends only on its argument, a
call that succeeds leaves `stderr` unchanged, and a call that fails with `InvalidByte`
appends one line to `stderr`, the text of the exception followed by a newline. -/
theorem decode_stderr (s : List Char) (stderr : List String) :
    (decode s stderr).1 = (decode s []).1 ∧
    (((∃ B, (decode s stderr).1 = some (Except.ok B)) ∧ (decode s stderr).2 = stderr) ∨
      ((decode s stderr).1 = some (Except.error DecodeError.InvalidByte) ∧
        (decode s stderr).2 = stderr ++ [bad_optional_access_what ++ "\n"])) := by
  by_cases h : ∃ c ∈ trimmed s, c ∉ alphabet
  · rw [decode_of_not_alphabet s stderr h, decode_of_not_alphabet s [] h]
    exact ⟨rfl, Or.inr ⟨rfl, rfl⟩⟩
  · have hall : ∀ c ∈ trimmed s, c ∈ alphabet := by
      intro c hc
      by_contra hc'
      exact h ⟨c, hc, hc'⟩
    obtain ⟨vs, hvs, -, -⟩ := exists_values _ hall
    rw [decode_of_values s stderr vs hvs, decode_of_values s [] vs hvs]
    exact ⟨rfl, Or.inl ⟨⟨_, rfl⟩, rfl⟩⟩

/-- Counterexample to C14 as stated: `decode` of `!` fails with `InvalidByte` and
changes `stderr`, from empty to one line. -/
theorem decode_writes_stderr :
    (decode "!".toList []).1 = some (Except.error DecodeError.InvalidByte) ∧
    (decode "!".toList []).2 = ["bad optional access\n"] ∧
    (decode "!".toList []).2 ≠ [] := by
  refine ⟨rfl, by decide, by decide⟩

/-- C15: the two lookups are mutually inverse.  For every value `v` below 64,
`lookup_b64_index` of `lookup_b64_code v` is `v`; `lookup_b64_index c` is defined
exactly when `c` is one of the 64 alphabet characters, and then `lookup_b64_code` of it
is `c`; both maps are injective where defined, and `=` has no value. -/
theorem lookups_inverse :
    (∀ v, v < 64 → (lookup_b64_code v).bind lookup_b64_index = some v) ∧
    (∀ c, (∃ v, lookup_b64_index c = some v) ↔ c ∈ alphabet) ∧
    (∀ c v, lookup_b64_index c = some v → lookup_b64_code v = some c) ∧
    (∀ c d v, lookup_b64_index c = some v → lookup_b64_index d = some v → c = d) ∧
    (∀ v w c, lookup_b64_code v = some c → lookup_b64_code w = some c → v = w) ∧
    lookup_b64_index '=' = none ∧ alphabet.length = 64 ∧ alphabet.Nodup := by
  refine ⟨?_, ?_, ?_, ?_, ?_, rfl, rfl, by decide⟩
  · intro v hv
    rw [lookup_b64_code_of_lt v hv, Option.some_bind, lookup_b64_index_alphabet_char v hv]
  · intro c
    constructor
    · rintro ⟨v, hv⟩
      by_contra hn
      rw [(lookup_b64_index_eq_none_iff c).mpr hn] at hv
      exact absurd hv (by simp)
    · intro hc
      cases h : lookup_b64_index c with
      | none => exact absurd hc ((lookup_b64_index_eq_none_iff c).mp h)
      | some v => exact ⟨v, rfl⟩
  · intro c v h
    obtain ⟨hv, rfl⟩ := lookup_b64_index_some c v h
    exact lookup_b64_code_of_lt v hv
  · intro c d v hc hd
    rw [(lookup_b64_index_some c v hc).2, (lookup_b64_index_some d v hd).2]
  · intro v w c hv hw
    have hv64 : v < 64 := by
      by_contra hn
      rw [lookup_b64_code_of_ge v (by omega)] at hv
      exact absurd hv (by simp)
    have hw64 : w < 64 := by
      by_contra hn
      rw [lookup_b64_code_of_ge w (by omega)] at hw
      exact absurd hw (by simp)
    rw [lookup_b64_code_of_lt v hv64, Option.some.injEq] at hv
    rw [lookup_b64_code_of_lt w hw64, Option.some.injEq] at hw
    have h1 := lookup_b64_index_alphabet_char v hv64
    have h2 := lookup_b64_index_alphabet_char w hw64
    rw [hv] at h1
    rw [hw, h1] at h2
    exact Option.some.inj h2

/-- C16: everything from the first `=` on is discarded without being inspected.  For
every string `s` that contains no `=` and every string `t`, `decode` of `s ++ "=" ++ t`
is `decode` of `s`, result and `stderr` alike. -/
theorem decode_discards_after_padding (s t : List Char) (stderr : List String)
    (h : '=' ∉ s) : decode (s ++ '=' :: t) stderr = decode s stderr := by
  rw [← decode_trimmed (s ++ '=' :: t), ← decode_trimmed s, trimmed_append_eq s t h,
    trimmed_of_not_mem s h]

/-- Witness of C16: `decode` of `TQ==` is `decode` of `TQ`. -/
theorem decode_discards_after_padding_witness :
    '=' ∉ "TQ".toList ∧ decode "TQ==".toList [] = decode "TQ".toList [] :=
  ⟨by decide, decode_discards_after_padding "TQ".toList "=".toList [] (by decide)⟩

/-- C17: the unused low bits of the final group do not affect the result.  For every
prefix `p` of alphabet characters with length divisible by 4: when `c2` and `c2'` have
values that agree on `value >> 4`, `decode` of `p ++ [c1, c2]` and of `p ++ [c1, c2']`
succeed with the same bytes; when `c3` and `c3'` have values that agree on `value >> 2`,
so do `decode` of `p ++ [c1, c2, c3]` and of `p ++ [c1, c2, c3']`.  Hence `decode` is
not injective on the inputs it accepts. -/
theorem decode_ignores_unused_bits (p : List Char) (stderr : List String)
    (hp : ∀ c ∈ p, c ∈ alphabet) (hlen : p.length % 4 = 0) :
    (∀ c1 c2 c2' v1 v2 v2', lookup_b64_index c1 = some v1 → lookup_b64_index c2 = some v2 →
      lookup_b64_index c2' = some v2' → v2 >>> 4 = v2' >>> 4 →
      decode (p ++ [c1, c2]) stderr = decode (p ++ [c1, c2']) stderr ∧
      ∃ B, (decode (p ++ [c1, c2]) stderr).1 = some (Except.ok B)) ∧
    (∀ c1 c2 c3 c3' v1 v2 v3 v3', lookup_b64_index c1 = some v1 →
      lookup_b64_index c2 = some v2 → lookup_b64_index c3 = some v3 →
      lookup_b64_index c3' = some v3' → v3 >>> 2 = v3' >>> 2 →
      decode (p ++ [c1, c2, c3]) stderr = decode (p ++ [c1, c2, c3']) stderr ∧
      ∃ B, (decode (p ++ [c1, c2, c3]) stderr).1 = some (Except.ok B)) ∧
    (∃ x y : List Char, x ≠ y ∧ decode x stderr = decode y stderr ∧
      ∃ B, (decode x stderr).1 = some (Except.ok B)) := by
  obtain ⟨vp, hvp, -, -⟩ := exists_values p hp
  refine ⟨?_, ?_, "TQ==".toList, "TR==".toList, by decide, rfl, _, rfl⟩
  · intro c1 c2 c2' v1 v2 v2' h1 h2 h2' hv
    have e : decode_values [v1, v2] = decode_values [v1, v2'] := by
      simp only [Nat.shiftRight_eq_div_pow] at hv
      have : v2 / 16 = v2' / 16 := by omega
      simp only [decode_values, this]
    rw [decode_append_group p [c1, c2] stderr vp [v1, v2] hvp (by simp [h1, h2]) hlen,
      decode_append_group p [c1, c2'] stderr vp [v1, v2'] hvp (by simp [h1, h2']) hlen, e]
    exact ⟨rfl, _, rfl⟩
  · intro c1 c2 c3 c3' v1 v2 v3 v3' h1 h2 h3 h3' hv
    have e : decode_values [v1, v2, v3] = decode_values [v1, v2, v3'] := by
      simp only [Nat.shiftRight_eq_div_pow] at hv
      have : v3 / 4 = v3' / 4 := by omega
      simp only [decode_values, this]
    rw [decode_append_group p [c1, c2, c3] stderr vp [v1, v2, v3] hvp (by simp [h1, h2, h3]) hlen,
      decode_append_group p [c1, c2, c3'] stderr vp [v1, v2, v3'] hvp (by simp [h1, h2, h3'])
        hlen, e]
    exact ⟨rfl, _, rfl⟩

/-- Witness of C17: `TQ` and `TR`, and `TWE` and `TWF`, decode to the same bytes, so
`decode` is not injective on the inputs it accepts. -/
theorem decode_ignores_unused_bits_witness :
    (decode "TQ".toList [] = decode "TR".toList [] ∧
      ∃ B, (decode "TQ".toList []).1 = some (Except.ok B)) ∧
    (decode "TWE".toList [] = decode "TWF".toList [] ∧
      ∃ B, (decode "TWE".toList []).1 = some (Except.ok B)) ∧
    "TQ==".toList ≠ "TR==".toList ∧ decode "TQ==".toList [] = decode "TR==".toList [] :=
  ⟨(decode_ignores_unused_bits [] [] (by simp) (by decide)).1 'T' 'Q' 'R' 19 16 17
      (by decide) (by decide) (by decide) (by decide),
    (decode_ignores_unused_bits [] [] (by simp) (by decide)).2.1 'T' 'W' 'E' 'F' 19 22 4 5
      (by decide) (by decide) (by decide) (by decide) (by decide),
    by decide, rfl⟩

/-- C18: a single dangling symbol is dropped.  For every string `s` of alphabet
characters with length divisible by 4 and every alphabet character `c`, `decode` of
`s ++ [c]` succeeds (no read is out of bounds) with the bytes that `decode` of `s`
returns, and their number is `3 * (M / 4)` for the trimmed length `M` of `s ++ [c]`. -/
theorem decode_drops_dangling_symbol (s : List Char) (c : Char) (stderr : List String)
    (hs : ∀ d ∈ s, d ∈ alphabet) (hlen : s.length % 4 = 0) (hc : c ∈ alphabet) :
    ∃ B, decode (s ++ [c]) stderr = (some (Except.ok B), stderr) ∧
      decode s stderr = (some (Except.ok B), stderr) ∧
      (trimmed (s ++ [c])).length % 4 = 1 ∧
      B.length = 3 * ((trimmed (s ++ [c])).length / 4) := by
  obtain ⟨vs, hvs, hvl, -⟩ := exists_values s hs
  obtain ⟨vc, hvc, hcl, -⟩ := exists_values [c] (by simpa using hc)
  have hall : ∀ d ∈ s ++ [c], d ∈ alphabet := by
    intro d hd
    rcases List.mem_append.mp hd with h | h
    · exact hs d h
    · rw [List.mem_singleton.mp h]; exact hc
  have htr : trimmed (s ++ [c]) = s ++ [c] :=
    trimmed_of_not_mem _ (eq_not_mem_of_alphabet _ hall)
  have hts : (trimmed s).map lookup_b64_index = vs.map some := by
    rw [trimmed_of_not_mem s (eq_not_mem_of_alphabet s hs), hvs]
  match vc, hcl with
  | [v], _ =>
    refine ⟨decode_values vs, ?_, decode_of_values s stderr vs hts, ?_, ?_⟩
    · rw [decode_append_group s [c] stderr vs [v] hvs hvc hlen]
      simp [decode_values]
    · rw [htr, List.length_append, List.length_singleton]; omega
    · rw [htr, decode_values_length, hvl, List.length_append, List.length_singleton, hlen]
      simp only [List.getD_cons_zero]
      omega

/-- Witness of C18: `decode` of `TWFuT` is `decode` of `TWFu`. -/
theorem decode_drops_dangling_symbol_witness :
    ∃ B, decode "TWFuT".toList [] = (some (Except.ok B), []) ∧
      decode "TWFu".toList [] = (some (Except.ok B), []) ∧
      (trimmed "TWFuT".toList).length % 4 = 1 ∧
      B.length = 3 * ((trimmed "TWFuT".toList).length / 4) :=
  decode_drops_dangling_symbol "TWFu".toList 'T' [] (by decide) (by decide) (by decide)

/-- C19: encoding distributes over concatenation at a window boundary.  For all byte
sequences `B` and `C` with the length of `B` divisible by 3, `encode` of `B ++ C` is
`encode` of `B` followed by `encode` of `C`. -/
theorem encode_append (B C : List U8) (h : B.length % 3 = 0) :
    ∃ E F, encode B = some E ∧ encode C = some F ∧ encode (B ++ C) = some (E ++ F) := by
  refine ⟨encode_windows B, encode_windows C, encode_eq B, encode_eq C, ?_⟩
  rw [encode_eq, encode_windows_append (B.length / 3) B C (by omega)]

/-- Witness of C19, at `4D 61 6E` followed by `4D`. -/
theorem encode_append_witness :
    ([0x4D, 0x61, 0x6E] : List U8).length % 3 = 0 ∧
    ∃ E F, encode [0x4D, 0x61, 0x6E] = some E ∧ encode [0x4D] = some F ∧
      encode ([0x4D, 0x61, 0x6E] ++ [0x4D]) = some (E ++ F) :=
  ⟨by decide, encode_append [0x4D, 0x61, 0x6E] [0x4D] (by decide)⟩

/-- C20: reverse round trip on canonical input.  For every string `E` of length
divisible by 4 that is `data` followed by `k` characters `=`, with `data` made of
alphabet characters, `k` at most 2, and the value of the last symbol a multiple of 4
when `k = 1` and of 16 when `k = 2` (the unused low bits are zero), `decode E` succeeds
with some `B`, and `encode B` returns `E`. -/
theorem encode_decode_round_trip (E data : List Char) (k : Nat) (stderr : List String)
    (hE : E = data ++ List.replicate k '=') (hdata : ∀ c ∈ data, c ∈ alphabet) (hk : k ≤ 2)
    (hlen : E.length % 4 = 0)
    (hbits : ∀ c v, data.getLast? = some c → lookup_b64_index c = some v →
      (k = 1 → v % 4 = 0) ∧ (k = 2 → v % 16 = 0)) :
    ∃ B, (decode E stderr).1 = some (Except.ok B) ∧ encode B = some E := by
  obtain ⟨vs, hvs, hvl, hv64⟩ := exists_values data hdata
  have hnot : '=' ∉ data := eq_not_mem_of_alphabet data hdata
  have htr : trimmed E = data := by
    rw [hE]
    match k, hk with
    | 0, _ => simpa using trimmed_of_not_mem data hnot
    | 1, _ => exact trimmed_append_eq data [] hnot
    | 2, _ => exact trimmed_append_eq data ['='] hnot
  have hlen' : (data.length + k) % 4 = 0 := by
    rw [hE, List.length_append, List.length_replicate] at hlen
    exact hlen
  have hpad : (4 - vs.length % 4) % 4 = k := by omega
  have hcanon := encode_decode_values vs hv64 (by omega)
    (fun h v hv => by
      obtain ⟨c, hc, hcv⟩ := getLast_values data vs hvs v hv
      exact (hbits c v hc hcv).2 (by omega))
    (fun h v hv => by
      obtain ⟨c, hc, hcv⟩ := getLast_values data vs hvs v hv
      exact (hbits c v hc hcv).1 (by omega))
  refine ⟨decode_values vs, ?_, ?_⟩
  · rw [decode_of_values E stderr vs (by rw [htr, hvs])]
  · rw [encode_eq, hcanon, map_alphabet_char_values data vs hvs, hpad, hE]

/-- Witness of C20, at `TWFuTWE=`. -/
theorem encode_decode_round_trip_witness :
    ∃ B, (decode "TWFuTWE=".toList []).1 = some (Except.ok B) ∧
      encode B = some "TWFuTWE=".toList :=
  encode_decode_round_trip "TWFuTWE=".toList "TWFuTWE".toList 1 [] (by decide) (by decide)
    (by decide) (by decide)
    (by
      intro c v hc hv
      have hc' : c = 'E' := by
        have : "TWFuTWE".toList.getLast? = some 'E' := by decide
        rw [this] at hc
        exact (Option.some.inj hc).symm
      subst hc'
      have : v = 4 := by
        have h4 : lookup_b64_index 'E' = some 4 := by decide
        rw [h4] at hv
        exact (Option.some.inj hv).symm
      subst this
      exact ⟨fun _ => by decide, fun h => absurd h (by decide)⟩)

end minotronist
